import Mathlib

/-!
Verification of the adversarial-search engine (`my_custom_player.py`):
an MCTS/UCT driver and an iterative-deepening alpha-beta driver over an
abstract two-player game-state interface.
-/

set_option maxHeartbeats 1000000

namespace IsoSearch

/-! ## Extended integers

The Python search code manipulates integer-valued utilities and scores
together with the float sentinels `float('inf')` and `float('-inf')`.
We model these values by the integers extended with two infinities. -/

inductive EInt : Type where
  | ninf : EInt
  | fin (n : ℤ) : EInt
  | pinf : EInt
deriving DecidableEq

def EInt.ble : EInt → EInt → Bool
  | .ninf, _ => true
  | .fin _, .ninf => false
  | .fin m, .fin n => decide (m ≤ n)
  | .fin _, .pinf => true
  | .pinf, .ninf => false
  | .pinf, .fin _ => false
  | .pinf, .pinf => true

instance : LE EInt := ⟨fun a b => EInt.ble a b = true⟩

instance : LT EInt := ⟨fun a b => a ≤ b ∧ ¬ b ≤ a⟩

theorem EInt.le_def (a b : EInt) : (a ≤ b) = (EInt.ble a b = true) := rfl

instance EInt.decLE (a b : EInt) : Decidable (a ≤ b) :=
  inferInstanceAs (Decidable (EInt.ble a b = true))

instance EInt.decLT (a b : EInt) : Decidable (a < b) :=
  inferInstanceAs (Decidable (a ≤ b ∧ ¬ b ≤ a))

instance : LinearOrder EInt where
  le := (· ≤ ·)
  lt := (· < ·)
  lt_iff_le_not_le _ _ := Iff.rfl
  le_refl a := by cases a <;> simp [EInt.le_def, EInt.ble]
  le_trans a b c := by
    cases a <;> cases b <;> cases c <;> simp [EInt.le_def, EInt.ble] <;> omega
  le_antisymm a b := by
    cases a <;> cases b <;> simp [EInt.le_def, EInt.ble] <;> omega
  le_total a b := by
    cases a <;> cases b <;> simp [EInt.le_def, EInt.ble] <;> omega
  decidableLE := EInt.decLE

instance : Bot EInt := ⟨EInt.ninf⟩

instance : Top EInt := ⟨EInt.pinf⟩

instance : OrderBot EInt where
  bot_le a := by cases a <;> rfl

instance : OrderTop EInt where
  le_top a := by cases a <;> rfl

theorem EInt.lt_def (a b : EInt) :
    a < b ↔ (EInt.ble a b = true ∧ ¬ EInt.ble b a = true) := Iff.rfl

theorem EInt.bot_lt_fin (n : ℤ) : (⊥ : EInt) < EInt.fin n := by
  show EInt.ninf < EInt.fin n
  rw [EInt.lt_def]; simp [EInt.ble]

theorem EInt.fin_lt_top (n : ℤ) : EInt.fin n < (⊤ : EInt) := by
  show EInt.fin n < EInt.pinf
  rw [EInt.lt_def]; simp [EInt.ble]

theorem EInt.bot_lt_top : (⊥ : EInt) < (⊤ : EInt) := by decide

theorem EInt.fin_le_fin {m n : ℤ} : EInt.fin m ≤ EInt.fin n ↔ m ≤ n := by
  rw [EInt.le_def]; simp [EInt.ble]

theorem EInt.fin_lt_fin {m n : ℤ} : EInt.fin m < EInt.fin n ↔ m < n := by
  rw [EInt.lt_def]; simp [EInt.ble]; omega

/-! ## The abstract game-state interface

The board (`isolation.Isolation`) is external to the verified code; the
search consumes it through this interface: legal actions, successor
computation, terminal test, terminal utility, and the location/liberty
queries used by the static evaluator. -/

structure Game (σ α : Type) where
  actions : σ → List α
  result : σ → α → σ
  terminalTest : σ → Bool
  utility : σ → ℕ → ℤ
  locs : σ → ℕ → ℕ
  liberties : σ → ℕ → List ℕ

/-- A game is well formed when every non-terminal state offers at least one
legal action (the documented contract of the external `Isolation` class). -/
def Game.WellFormed {σ α : Type} (g : Game σ α) : Prop :=
  ∀ s : σ, g.terminalTest s = false → g.actions s ≠ []

/-- `AlphaBetaPlayer.score`: mobility heuristic, own liberties minus the
opponent's liberties. -/
def score {σ α : Type} (g : Game σ α) (pid : ℕ) (s : σ) : ℤ :=
  ((g.liberties s (g.locs s pid)).length : ℤ) -
    ((g.liberties s (g.locs s (1 - pid))).length : ℤ)

/-! ## Alpha-beta search (`AlphaBetaPlayer.alpha_beta`)

The two mutually recursive inner functions `max_value` / `min_value` are
modelled as one depth-indexed function carrying a maximizing flag (their
bodies are exact duals).  The `for` loops with early `return` become the
explicit list recursions `maxLoopG` / `minLoopG`, parameterized by the
evaluation function used on child states. -/

/-- Loop body of `max_value`: fold over actions, track the running `value`,
cut off once `value >= beta`, and tighten `alpha` after each child. -/
def maxLoopG {σ α : Type} (g : Game σ α) (childEval : σ → EInt → EInt → EInt) :
    List α → σ → EInt → EInt → EInt → EInt
  | [], _, value, _, _ => value
  | c :: rest, s, value, a, b =>
    let v := max value (childEval (g.result s c) a b)
    if b ≤ v then v else maxLoopG g childEval rest s v (max a v) b

/-- Loop body of `min_value`: dual to `maxLoopG`. -/
def minLoopG {σ α : Type} (g : Game σ α) (childEval : σ → EInt → EInt → EInt) :
    List α → σ → EInt → EInt → EInt → EInt
  | [], _, value, _, _ => value
  | c :: rest, s, value, a, b =>
    let v := min value (childEval (g.result s c) a b)
    if v ≤ a then v else minLoopG g childEval rest s v a (min b v)

/-- The mutually recursive pair `max_value` / `min_value`, as one function
indexed by a maximizing flag.  Terminal states return the utility for the
fixed searching player; at depth 0 the static evaluator is used. -/
def abVal {σ α : Type} (g : Game σ α) (pid : ℕ) :
    ℕ → Bool → σ → EInt → EInt → EInt
  | d, isMax, s, a, b =>
    if g.terminalTest s then EInt.fin (g.utility s pid)
    else
      match d with
      | 0 => EInt.fin (score g pid s)
      | d' + 1 =>
        if isMax then maxLoopG g (abVal g pid d' false) (g.actions s) s ⊥ a b
        else minLoopG g (abVal g pid d' true) (g.actions s) s ⊤ a b

/-- `max_value(state, depth, alpha, beta)`. -/
def maxValue {σ α : Type} (g : Game σ α) (pid : ℕ) (d : ℕ) (s : σ)
    (a b : EInt) : EInt :=
  abVal g pid d true s a b

/-- `min_value(state, depth, alpha, beta)`. -/
def minValue {σ α : Type} (g : Game σ α) (pid : ℕ) (d : ℕ) (s : σ)
    (a b : EInt) : EInt :=
  abVal g pid d false s a b

/-- The top-level loop of `alpha_beta`: tracks the best action seen so far,
updating only on a strict improvement (first action wins ties), and
tightens `alpha` after every child. -/
def abLoop {σ α : Type} (g : Game σ α) (pid : ℕ) (d' : ℕ) :
    List α → σ → EInt → EInt → EInt → Option α → Option α
  | [], _, _, _, _, best => best
  | c :: rest, s, alpha, beta, bestScore, best =>
    let v := minValue g pid d' (g.result s c) alpha beta
    if bestScore < v then abLoop g pid d' rest s (max alpha v) beta v (some c)
    else abLoop g pid d' rest s (max alpha v) beta bestScore best

/-- `AlphaBetaPlayer.alpha_beta(state, depth)`. -/
def alpha_beta {σ α : Type} (g : Game σ α) (pid : ℕ) (s : σ) (depth : ℕ) :
    Option α :=
  abLoop g pid (depth - 1) (g.actions s) s ⊥ ⊤ ⊥ none

/-! ## Exhaustive (unpruned) minimax

Modelled from the spec: the reference search that alpha-beta must agree
with — plain depth-bounded minimax with no alpha/beta window, choosing the
action of maximal backed-up value with ties broken in favor of the first
action in `legalActions` order. -/

/-- Unpruned fold for a maximizing node. -/
def maxFoldG {σ α : Type} (g : Game σ α) (childEval : σ → EInt) :
    List α → σ → EInt → EInt
  | [], _, value => value
  | c :: rest, s, value => maxFoldG g childEval rest s (max value (childEval (g.result s c)))

/-- Unpruned fold for a minimizing node. -/
def minFoldG {σ α : Type} (g : Game σ α) (childEval : σ → EInt) :
    List α → σ → EInt → EInt
  | [], _, value => value
  | c :: rest, s, value => minFoldG g childEval rest s (min value (childEval (g.result s c)))

/-- Modelled from the spec: exhaustive depth-bounded minimax value, same
terminal/cutoff behavior as `abVal` but with no pruning window. -/
def mmVal {σ α : Type} (g : Game σ α) (pid : ℕ) : ℕ → Bool → σ → EInt
  | d, isMax, s =>
    if g.terminalTest s then EInt.fin (g.utility s pid)
    else
      match d with
      | 0 => EInt.fin (score g pid s)
      | d' + 1 =>
        if isMax then maxFoldG g (mmVal g pid d' false) (g.actions s) s ⊥
        else minFoldG g (mmVal g pid d' true) (g.actions s) s ⊤

/-- Modelled from the spec: the top-level loop of exhaustive minimax,
tracking the action of maximum backed-up value, first action winning ties. -/
def mmLoop {σ α : Type} (g : Game σ α) (pid : ℕ) (d' : ℕ) :
    List α → σ → EInt → Option α → Option α
  | [], _, _, best => best
  | c :: rest, s, bestScore, best =>
    let v := mmVal g pid d' false (g.result s c)
    if bestScore < v then mmLoop g pid d' rest s v (some c)
    else mmLoop g pid d' rest s bestScore best

/-- Modelled from the spec: exhaustive depth-`depth` minimax move selection
from the fixed searching player's perspective. -/
def minimax_move {σ α : Type} (g : Game σ α) (pid : ℕ) (s : σ) (depth : ℕ) :
    Option α :=
  mmLoop g pid (depth - 1) (g.actions s) s ⊥ none

/-! ## Iterative deepening (`AlphaBetaPlayer.alpha_beta_iter`)

The generator is modelled as a step function on its single piece of local
state (the depth counter, initialized to 1): each step first increments the
counter and then yields `alpha_beta(state, depth)`. -/

/-- One resumption of the `alpha_beta_iter` generator body: increment the
depth, then yield the move found by a fresh full-depth search. -/
def alpha_beta_iter_step {σ α : Type} (g : Game σ α) (pid : ℕ) (s : σ)
    (depth : ℕ) : ℕ × Option α :=
  (depth + 1, alpha_beta g pid s (depth + 1))

/-- The trace of the generator: `abIterRun g pid s n` is the depth counter
and the yielded action after the `n`-th resumption (counting from 0). -/
def abIterRun {σ α : Type} (g : Game σ α) (pid : ℕ) (s : σ) :
    ℕ → ℕ × Option α
  | 0 => alpha_beta_iter_step g pid s 1
  | n + 1 => alpha_beta_iter_step g pid s (abIterRun g pid s n).1

/-! ## Fueled evaluators

`minValueF`/`maxValueF` mirror `min_value`/`max_value` but model each
recursive activation as consuming one unit of call-stack fuel, returning
`none` when the fuel runs out.  Termination of the source recursion is the
statement that fuel exceeding the depth always suffices. -/

/-- Fueled loop body of `max_value`. -/
def maxLoopGF {σ α : Type} (g : Game σ α)
    (childEval : σ → EInt → EInt → Option EInt) :
    List α → σ → EInt → EInt → EInt → Option EInt
  | [], _, value, _, _ => some value
  | c :: rest, s, value, a, b =>
    match childEval (g.result s c) a b with
    | none => none
    | some mv =>
      let v := max value mv
      if b ≤ v then some v else maxLoopGF g childEval rest s v (max a v) b

/-- Fueled loop body of `min_value`. -/
def minLoopGF {σ α : Type} (g : Game σ α)
    (childEval : σ → EInt → EInt → Option EInt) :
    List α → σ → EInt → EInt → EInt → Option EInt
  | [], _, value, _, _ => some value
  | c :: rest, s, value, a, b =>
    match childEval (g.result s c) a b with
    | none => none
    | some mv =>
      let v := min value mv
      if v ≤ a then some v else minLoopGF g childEval rest s v a (min b v)

/-- Fueled `max_value`/`min_value`: one unit of fuel per recursive
activation, `none` when the fuel is exhausted. -/
def abValF {σ α : Type} (g : Game σ α) (pid : ℕ) :
    ℕ → ℕ → Bool → σ → EInt → EInt → Option EInt
  | 0, _, _, _, _, _ => none
  | f + 1, d, isMax, s, a, b =>
    if g.terminalTest s then some (EInt.fin (g.utility s pid))
    else
      match d with
      | 0 => some (EInt.fin (score g pid s))
      | d' + 1 =>
        if isMax then maxLoopGF g (abValF g pid f d' false) (g.actions s) s ⊥ a b
        else minLoopGF g (abValF g pid f d' true) (g.actions s) s ⊤ a b

/-- Fueled `min_value`. -/
def minValueF {σ α : Type} (g : Game σ α) (pid : ℕ) (f d : ℕ) (s : σ)
    (a b : EInt) : Option EInt :=
  abValF g pid f d false s a b

/-- Fueled `max_value`. -/
def maxValueF {σ α : Type} (g : Game σ α) (pid : ℕ) (f d : ℕ) (s : σ)
    (a b : EInt) : Option EInt :=
  abValF g pid f d true s a b

/-- Fueled top-level `alpha_beta` loop. -/
def abLoopF {σ α : Type} (g : Game σ α) (pid : ℕ) (f d' : ℕ) :
    List α → σ → EInt → EInt → EInt → Option α → Option (Option α)
  | [], _, _, _, _, best => some best
  | c :: rest, s, alpha, beta, bestScore, best =>
    match minValueF g pid f d' (g.result s c) alpha beta with
    | none => none
    | some v =>
      if bestScore < v then abLoopF g pid f d' rest s (max alpha v) beta v (some c)
      else abLoopF g pid f d' rest s (max alpha v) beta bestScore best

/-- Fueled `alpha_beta`. -/
def alpha_betaF {σ α : Type} (g : Game σ α) (pid : ℕ) (f : ℕ) (s : σ)
    (depth : ℕ) : Option (Option α) :=
  abLoopF g pid f (depth - 1) (g.actions s) s ⊥ ⊤ ⊥ none

/-! ## MCTS node statistics (`Stats`), backpropagation and rollout

`back_prop` walks the mutable parent chain from the exploration node `E` up
to the root; we model that chain explicitly as the list of per-node
statistics records from `E` (head) to the root (last element). -/

/-- The `Stats` record attached to each tree node. -/
structure NStats (σ : Type) where
  state : σ
  player_id : ℕ
  visit_count : ℕ
  win_score : ℤ
deriving DecidableEq

/-- `MCTS.back_prop`: walk the parent chain, incrementing every visit count
and adding the rollout score to every win score. -/
def back_prop {σ : Type} (sc : ℤ) : List (NStats σ) → List (NStats σ)
  | [] => []
  | n :: rest =>
    { n with visit_count := n.visit_count + 1, win_score := n.win_score + sc } ::
      back_prop sc rest

/-- The random playout walk: repeatedly apply the action chosen by the
random oracle `rolls` until reaching a terminal state (or running out of
step fuel, which models only that real games end). -/
def playoutFrom {σ α : Type} (g : Game σ α) (rolls : ℕ → ℕ) :
    ℕ → ℕ → σ → σ
  | 0, _, s => s
  | f + 1, i, s =>
    if g.terminalTest s then s
    else
      match h : g.actions s with
      | [] => s
      | a :: rest =>
        playoutFrom g rolls f (i + 1)
          (g.result s ((a :: rest).get ⟨rolls i % (a :: rest).length,
            Nat.mod_lt _ (by simp)⟩))

/-- `MCTS.random_playout`: returns the updated node statistics together
with the rollout score.  When the node's own state is already terminal the
source also adds the score directly into the node's `win_score` before
returning. -/
def random_playout {σ α : Type} (g : Game σ α) (rolls : ℕ → ℕ) (fuel : ℕ)
    (node : NStats σ) : NStats σ × ℤ :=
  if g.terminalTest node.state then
    let sc : ℤ := if 0 < g.utility node.state node.player_id then 1 else -1
    ({ node with win_score := node.win_score + sc }, sc)
  else
    let endS := playoutFrom g rolls fuel 0 node.state
    (node, if 0 < g.utility endS node.player_id then 1 else -1)

/-- The rollout score produced by `random_playout` on a node. -/
def rollout_score {σ α : Type} (g : Game σ α) (rolls : ℕ → ℕ) (fuel : ℕ)
    (node : NStats σ) : ℤ :=
  (random_playout g rolls fuel node).2

/-- One simulate-then-backpropagate phase of an MCTS iteration, acting on
the parent chain from the exploration node `E` (head) to the root (last):
run `random_playout` on `E`, then `back_prop` the score along the chain. -/
def simulate_backprop {σ α : Type} (g : Game σ α) (rolls : ℕ → ℕ)
    (fuel : ℕ) : List (NStats σ) → List (NStats σ)
  | [] => []
  | e :: rest =>
    let p := random_playout g rolls fuel e
    back_prop p.2 (p.1 :: rest)

/-! ## The MCTS search tree (`Node`)

A `Node` holds its `Stats`, the action that produced it (absent at the
root), and its ordered list of children.  The Python parent pointer is
implicit here: subtrees own their children, and backpropagation happens on
the way back out of the recursive descent. -/

inductive MTree (σ α : Type) : Type where
  | node (state : σ) (player_id : ℕ) (visit_count : ℕ) (win_score : ℤ)
      (act : Option α) (children : List (MTree σ α)) : MTree σ α

def MTree.state {σ α : Type} : MTree σ α → σ
  | .node s _ _ _ _ _ => s

def MTree.pid {σ α : Type} : MTree σ α → ℕ
  | .node _ p _ _ _ _ => p

def MTree.visit {σ α : Type} : MTree σ α → ℕ
  | .node _ _ v _ _ _ => v

def MTree.win {σ α : Type} : MTree σ α → ℤ
  | .node _ _ _ w _ _ => w

def MTree.act {σ α : Type} : MTree σ α → Option α
  | .node _ _ _ _ a _ => a

def MTree.children {σ α : Type} : MTree σ α → List (MTree σ α)
  | .node _ _ _ _ _ cs => cs

/-- The fresh root node built by `next_move` at the start of a turn. -/
def freshRoot {σ α : Type} (s : σ) (pid : ℕ) : MTree σ α :=
  MTree.node s pid 0 0 none []

/-! ## Python `max(xs, key=f)`

Scans left to right keeping the current element unless the new key is
strictly greater, hence returns the first element attaining the maximal
key. -/

def maxByFirstAux {β K : Type} [LinearOrder K] (f : β → K) (b : β) :
    List β → β
  | [] => b
  | y :: ys => maxByFirstAux f (if f b < f y then y else b) ys

def maxByFirst {β K : Type} [LinearOrder K] (f : β → K) :
    List β → Option β
  | [] => none
  | x :: xs => some (maxByFirstAux f x xs)

/-- Index (into the original list) of the first element with maximal key;
`0` on the empty list. -/
def argmaxIdx {β K : Type} [LinearOrder K] (f : β → K) : List β → ℕ
  | [] => 0
  | x :: xs =>
    match xs with
    | [] => 0
    | y :: ys =>
      let j := argmaxIdx f (y :: ys)
      if f x < f ((y :: ys).getD j y) then j + 1 else 0

/-- `i` is the index of the first maximal key in `l`. -/
def IsFirstMax {β K : Type} [LinearOrder K] (f : β → K) (l : List β)
    (i : ℕ) : Prop :=
  ∃ h : i < l.length,
    (∀ j (hj : j < l.length), f (l.get ⟨j, hj⟩) ≤ f (l.get ⟨i, h⟩)) ∧
      ∀ j (hj : j < i), f (l.get ⟨j, Nat.lt_trans hj h⟩) < f (l.get ⟨i, h⟩)

/-! ## UCT selection policy -/

/-- `UCT.uct(total_visit, win_score, node_visit)`: infinite for an
unvisited node, otherwise exploitation plus the scaled exploration bonus
with constant `0.5 * 1.41`. -/
noncomputable def uct (total_visit : ℕ) (win_score : ℤ) (node_visit : ℕ) :
    EReal :=
  if node_visit = 0 then ⊤
  else
    (((win_score : ℝ) / (node_visit : ℝ) +
        0.5 * 1.41 * Real.sqrt (Real.log (total_visit : ℝ) / (node_visit : ℝ)) : ℝ) :
      EReal)

/-- `UCT.best_node`: the child maximizing `uct` with the parent's visit
count as `total_visit`; python `max` keeps the first maximal child. -/
noncomputable def best_node {σ α : Type} (t : MTree σ α) :
    Option (MTree σ α) :=
  maxByFirst (fun c => uct t.visit c.win c.visit) t.children

/-- `Node.best_child`: the child of maximal visit count (robust child),
python `max` keeps the first maximal child. -/
def best_child {σ α : Type} (t : MTree σ α) : Option (MTree σ α) :=
  maxByFirst (fun c => c.visit) t.children

/-- `MCTS.expand_node`: one fresh child per legal action, with zeroed
statistics and the parent's `player_id`. -/
def expandChildren {σ α : Type} (g : Game σ α) (s : σ) (pid : ℕ) :
    List (MTree σ α) :=
  (g.actions s).map (fun a => MTree.node (g.result s a) pid 0 0 (some a) [])

/-! ## One MCTS iteration (`MCTS.next_move` loop body)

`descend` performs selection (walk by `best_node` while a node has
children), then expansion, the random choice of the exploration node `E`,
the rollout from `E`, and backpropagation (performed on the way back up the
recursion, exactly the chain the Python parent pointers produce).  It
returns the updated tree together with the rollout score. -/

noncomputable def descend {σ α : Type} (g : Game σ α) (rolls : ℕ → ℕ)
    (fuel pick : ℕ) : MTree σ α → MTree σ α × ℤ
  | .node s pid v w a [] =>
    match (if g.terminalTest s then [] else expandChildren g s pid) with
    | [] =>
      let p := random_playout g rolls fuel ⟨s, pid, v, w⟩
      (MTree.node s pid (p.1.visit_count + 1) (p.1.win_score + p.2) a [], p.2)
    | e0 :: es =>
      let i := pick % (e0 :: es).length
      let e := (e0 :: es).get ⟨i, Nat.mod_lt _ (by simp)⟩
      let p := random_playout g rolls fuel ⟨e.state, e.pid, e.visit, e.win⟩
      let e' := MTree.node e.state e.pid (p.1.visit_count + 1)
        (p.1.win_score + p.2) e.act e.children
      (MTree.node s pid (v + 1) (w + p.2) a ((e0 :: es).set i e'), p.2)
  | .node s pid v w a (c0 :: cs0) =>
    let i := argmaxIdx (fun c => uct v c.win c.visit) (c0 :: cs0) % (c0 :: cs0).length
    let c := (c0 :: cs0).get ⟨i, Nat.mod_lt _ (by simp)⟩
    let p := descend g rolls fuel pick c
    (MTree.node s pid (v + 1) (w + p.2) a ((c0 :: cs0).set i p.1), p.2)
  termination_by t => sizeOf t
  decreasing_by
    have hm := List.sizeOf_lt_of_mem
      (List.get_mem (c0 :: cs0)
        (argmaxIdx (fun c => uct v c.win c.visit) (c0 :: cs0) % (c0 :: cs0).length)
        (Nat.mod_lt _ (by simp)))
    simp only [MTree.node.sizeOf_spec]
    omega

/-- The nodes at which the selection walk invokes `UCT.best_node` (i.e.
the nodes on the walk that still have children). -/
noncomputable def selectNodes {σ α : Type} :
    MTree σ α → List (MTree σ α)
  | .node _ _ _ _ _ [] => []
  | .node s pid v w a (c0 :: cs0) =>
    let i := argmaxIdx (fun c => uct v c.win c.visit) (c0 :: cs0) % (c0 :: cs0).length
    MTree.node s pid v w a (c0 :: cs0) ::
      selectNodes ((c0 :: cs0).get ⟨i, Nat.mod_lt _ (by simp)⟩)
  termination_by t => sizeOf t
  decreasing_by
    have hm := List.sizeOf_lt_of_mem
      (List.get_mem (c0 :: cs0)
        (argmaxIdx (fun c => uct v c.win c.visit) (c0 :: cs0) % (c0 :: cs0).length)
        (Nat.mod_lt _ (by simp)))
    simp only [MTree.node.sizeOf_spec]
    omega

/-- One full iteration of the `next_move` loop: run `descend`, then yield
the action of the root's best child (robust-child rule). -/
noncomputable def mcts_step {σ α : Type} (g : Game σ α) (rolls : ℕ → ℕ)
    (fuel pick : ℕ) (t : MTree σ α) : MTree σ α × Option α :=
  let t' := (descend g rolls fuel pick t).1
  (t', (best_child t').bind MTree.act)

mutual

/-- Structural invariant: every node that has children has been visited at
least once. -/
def invVisit {σ α : Type} : MTree σ α → Bool
  | .node _ _ v _ _ cs => (cs.isEmpty || decide (1 ≤ v)) && invVisitL cs

/-- `invVisit` on every tree of a list. -/
def invVisitL {σ α : Type} : List (MTree σ α) → Bool
  | [] => true
  | c :: rest => invVisit c && invVisitL rest

end

mutual

/-- Structural invariant: every node whose state is terminal is childless. -/
def termChildless {σ α : Type} (g : Game σ α) : MTree σ α → Bool
  | .node s _ _ _ _ cs => (!g.terminalTest s || cs.isEmpty) && termChildlessL g cs

/-- `termChildless` on every tree of a list. -/
def termChildlessL {σ α : Type} (g : Game σ α) : List (MTree σ α) → Bool
  | [] => true
  | c :: rest => termChildless g c && termChildlessL g rest

end

/-! ## Concrete instances used to exercise the definitions -/

/-- A degenerate random oracle (always picks index 0). -/
def zeroRolls : ℕ → ℕ := fun _ => 0

/-- A tiny well-formed chain game: 0 → 1 → 2, state 2 terminal with
utility 1 for both players. -/
def WG : Game (Fin 3) (Fin 1) where
  actions := fun _ => [0]
  result := fun s _ => ⟨min 2 (s.1 + 1), by omega⟩
  terminalTest := fun s => decide (s.1 = 2)
  utility := fun _ _ => 1
  locs := fun _ p => p
  liberties := fun s l => List.replicate (s.1 + l) 0

/-- The spec's example opening position: from state 0, action 0 leads to a
successor with own-liberties 3 / opponent-liberties 1, action 1 to a
successor with own-liberties 1 / opponent-liberties 3; the grandchildren
reached below them keep the same liberty profile. -/
def exG : Game (Fin 5) (Fin 2) where
  actions := fun s => if s.1 = 0 then [0, 1] else [0]
  result := fun s a =>
    match s.1, a.1 with
    | 0, 0 => 1
    | 0, _ => 2
    | 1, _ => 3
    | 2, _ => 4
    | 3, _ => 3
    | _, _ => 4
  terminalTest := fun _ => false
  utility := fun _ _ => 0
  locs := fun _ p => p
  liberties := fun s l =>
    match s.1, l with
    | 1, 0 => [0, 1, 2]
    | 1, _ => [0]
    | 2, 0 => [0]
    | 2, _ => [0, 1, 2]
    | 3, 0 => [0, 1, 2]
    | 3, _ => [0]
    | 4, 0 => [0]
    | 4, _ => [0, 1, 2]
    | _, _ => []

/-- A one-state game whose only state is terminal with utility 1. -/
def gT : Game (Fin 1) (Fin 1) where
  actions := fun _ => [0]
  result := fun s _ => s
  terminalTest := fun _ => true
  utility := fun _ _ => 1
  locs := fun _ p => p
  liberties := fun _ _ => []

/-- A `Stats` record on the terminal game, with zeroed statistics. -/
def st0 : NStats (Fin 1) := ⟨0, 0, 0, 0⟩

/-- A two-node tree: a visited root with one unvisited, childless child. -/
def tA : MTree (Fin 3) (Fin 1) :=
  MTree.node 0 0 1 0 none [MTree.node 1 0 0 0 (some 0) []]

/-! ## Theorems.  First: semantics of python `max(xs, key=f)` -/

theorem argmaxIdx_lt {β K : Type} [LinearOrder K] (f : β → K) :
    ∀ l : List β, l ≠ [] → argmaxIdx f l < l.length
  | [_], _ => by simp [argmaxIdx]
  | x :: y :: ys, _ => by
    have ih := argmaxIdx_lt f (y :: ys) (by simp)
    simp only [argmaxIdx]
    split
    · exact Nat.succ_lt_succ ih
    · simp

theorem isFirstMax_unique {β K : Type} [LinearOrder K] {f : β → K}
    {l : List β} {i j : ℕ} (hi : IsFirstMax f l i) (hj : IsFirstMax f l j) :
    i = j := by
  obtain ⟨hil, himax, hifirst⟩ := hi
  obtain ⟨hjl, hjmax, hjfirst⟩ := hj
  rcases Nat.lt_trichotomy i j with h | h | h
  · exact absurd (himax _ hjl) (not_le_of_lt (hjfirst i h))
  · exact h
  · exact absurd (hjmax _ hil) (not_le_of_lt (hifirst j h))

theorem argmaxIdx_isFirstMax {β K : Type} [LinearOrder K] (f : β → K) :
    ∀ l : List β, l ≠ [] → IsFirstMax f l (argmaxIdx f l)
  | [x], _ => by
    refine ⟨by simp [argmaxIdx], ?_, ?_⟩
    · intro j hj
      have hj0 : j = 0 := by simpa using Nat.lt_one_iff.mp (by simpa using hj)
      subst hj0
      simp [argmaxIdx]
    · intro j hj
      simp [argmaxIdx] at hj
  | x :: y :: ys, _ => by
    obtain ⟨ihlt, ihmax, ihfirst⟩ := argmaxIdx_isFirstMax f (y :: ys) (by simp)
    have hgd : (y :: ys).getD (argmaxIdx f (y :: ys)) y =
        (y :: ys).get ⟨argmaxIdx f (y :: ys), ihlt⟩ := by
      simp [List.getD_eq_getElem?_getD, List.getElem?_eq_getElem ihlt]
    simp only [argmaxIdx, hgd]
    split
    · next hlt =>
      refine ⟨Nat.succ_lt_succ ihlt, ?_, ?_⟩
      · intro j hj
        match j with
        | 0 => exact le_of_lt hlt
        | j + 1 => exact ihmax j (Nat.lt_of_succ_lt_succ hj)
      · intro j hj
        match j with
        | 0 => exact hlt
        | j + 1 => exact ihfirst j (Nat.lt_of_succ_lt_succ hj)
    · next hnlt =>
      refine ⟨by simp, ?_, ?_⟩
      · intro j hj
        match j with
        | 0 => exact le_refl _
        | j + 1 =>
          exact le_trans (ihmax j (Nat.lt_of_succ_lt_succ hj)) (not_lt.mp hnlt)
      · intro j hj
        exact absurd hj (Nat.not_lt_zero j)

theorem maxByFirstAux_char {β K : Type} [LinearOrder K] (f : β → K) :
    ∀ (ys : List β) (b : β),
      (f b < f (maxByFirstAux f b ys) →
        ∃ i, ∃ h : i < ys.length,
          ys.get ⟨i, h⟩ = maxByFirstAux f b ys ∧
          (∀ j (hj : j < ys.length),
            f (ys.get ⟨j, hj⟩) ≤ f (maxByFirstAux f b ys)) ∧
          ∀ j (hj : j < i),
            f (ys.get ⟨j, Nat.lt_trans hj h⟩) < f (maxByFirstAux f b ys)) ∧
      (¬ f b < f (maxByFirstAux f b ys) →
        maxByFirstAux f b ys = b ∧
        ∀ j (hj : j < ys.length), f (ys.get ⟨j, hj⟩) ≤ f b)
  | [], b => by
    constructor
    · intro h
      exact absurd h (lt_irrefl _)
    · intro _
      exact ⟨rfl, fun j hj => absurd hj (Nat.not_lt_zero j)⟩
  | y :: ys, b => by
    simp only [maxByFirstAux]
    by_cases hby : f b < f y
    · rw [if_pos hby]
      obtain ⟨ih1, ih2⟩ := maxByFirstAux_char f ys y
      have hyr : f y ≤ f (maxByFirstAux f y ys) := by
        by_cases hlt : f y < f (maxByFirstAux f y ys)
        · exact le_of_lt hlt
        · exact ge_of_eq (congrArg f (ih2 hlt).1)
      constructor
      · intro _
        by_cases hlt : f y < f (maxByFirstAux f y ys)
        · obtain ⟨i, h, hget, hmax, hfirst⟩ := ih1 hlt
          refine ⟨i + 1, Nat.succ_lt_succ h, hget, ?_, ?_⟩
          · intro j hj
            match j with
            | 0 => exact le_of_lt hlt
            | j + 1 => exact hmax j (Nat.lt_of_succ_lt_succ hj)
          · intro j hj
            match j with
            | 0 => exact hlt
            | j + 1 => exact hfirst j (Nat.lt_of_succ_lt_succ hj)
        · obtain ⟨hr, hall⟩ := ih2 hlt
          refine ⟨0, by simp, by simp [hr], ?_, ?_⟩
          · intro j hj
            match j with
            | 0 => exact hyr
            | j + 1 =>
              exact le_trans (hall j (Nat.lt_of_succ_lt_succ hj)) hyr
          · intro j hj
            exact absurd hj (Nat.not_lt_zero j)
      · intro hn
        exact absurd (lt_of_lt_of_le hby hyr) hn
    · rw [if_neg hby]
      obtain ⟨ih1, ih2⟩ := maxByFirstAux_char f ys b
      have hyb : f y ≤ f b := not_lt.mp hby
      constructor
      · intro hlt
        obtain ⟨i, h, hget, hmax, hfirst⟩ := ih1 hlt
        refine ⟨i + 1, Nat.succ_lt_succ h, hget, ?_, ?_⟩
        · intro j hj
          match j with
          | 0 => exact le_trans hyb (le_of_lt hlt)
          | j + 1 => exact hmax j (Nat.lt_of_succ_lt_succ hj)
        · intro j hj
          match j with
          | 0 => exact lt_of_le_of_lt hyb hlt
          | j + 1 => exact hfirst j (Nat.lt_of_succ_lt_succ hj)
      · intro hn
        obtain ⟨hr, hall⟩ := ih2 hn
        refine ⟨hr, ?_⟩
        intro j hj
        match j with
        | 0 => exact hyb
        | j + 1 => exact hall j (Nat.lt_of_succ_lt_succ hj)

theorem maxByFirst_isFirstMax {β K : Type} [LinearOrder K] {f : β → K}
    {l : List β} {m : β} (hm : maxByFirst f l = some m) :
    ∃ i, ∃ h : i < l.length, l.get ⟨i, h⟩ = m ∧ IsFirstMax f l i := by
  match l with
  | [] => exact absurd hm (by simp [maxByFirst])
  | x :: xs =>
    have hmx : m = maxByFirstAux f x xs := by
      simpa [maxByFirst] using hm.symm
    obtain ⟨ch1, ch2⟩ := maxByFirstAux_char f xs x
    by_cases hlt : f x < f (maxByFirstAux f x xs)
    · obtain ⟨i, h, hget, hmax, hfirst⟩ := ch1 hlt
      refine ⟨i + 1, Nat.succ_lt_succ h, by simpa [hmx] using hget,
        Nat.succ_lt_succ h, ?_, ?_⟩
      · intro j hj
        match j with
        | 0 => exact le_of_lt (by simpa [← hget] using hlt)
        | j + 1 =>
          have h1 := hmax j (Nat.lt_of_succ_lt_succ hj)
          rw [← hget] at h1
          exact h1
      · intro j hj
        match j with
        | 0 => exact (by simpa [← hget] using hlt)
        | j + 1 =>
          have h1 := hfirst j (Nat.lt_of_succ_lt_succ hj)
          rw [← hget] at h1
          exact h1
    · obtain ⟨hr, hall⟩ := ch2 hlt
      refine ⟨0, by simp, by simp [hmx, hr], by simp, ?_, ?_⟩
      · intro j hj
        match j with
        | 0 => exact le_refl _
        | j + 1 => exact hall j (Nat.lt_of_succ_lt_succ hj)
      · intro j hj
        exact absurd hj (Nat.not_lt_zero j)

theorem maxByFirst_eq_none_iff {β K : Type} [LinearOrder K] (f : β → K)
    (l : List β) : maxByFirst f l = none ↔ l = [] := by
  cases l <;> simp [maxByFirst]

theorem maxByFirst_mem {β K : Type} [LinearOrder K] {f : β → K}
    {l : List β} {m : β} (hm : maxByFirst f l = some m) : m ∈ l := by
  obtain ⟨i, h, hget, _⟩ := maxByFirst_isFirstMax hm
  exact hget ▸ List.get_mem l i h

theorem maxByFirst_argmax {β K : Type} [LinearOrder K] (f : β → K)
    (l : List β) (hl : l ≠ []) :
    maxByFirst f l = some (l.get ⟨argmaxIdx f l, argmaxIdx_lt f l hl⟩) := by
  match hm : maxByFirst f l with
  | none => exact absurd ((maxByFirst_eq_none_iff f l).mp hm) hl
  | some m =>
    obtain ⟨i, h, hget, hfm⟩ := maxByFirst_isFirstMax hm
    have := isFirstMax_unique hfm (argmaxIdx_isFirstMax f l hl)
    subst this
    rw [← hget]

theorem maxByFirst_of_strict {β K : Type} [LinearOrder K] (f : β → K)
    (l : List β) (i : ℕ) (h : i < l.length)
    (hstr : ∀ j (hj : j < l.length), j ≠ i →
      f (l.get ⟨j, hj⟩) < f (l.get ⟨i, h⟩)) :
    maxByFirst f l = some (l.get ⟨i, h⟩) := by
  have hfm : IsFirstMax f l i := by
    refine ⟨h, ?_, ?_⟩
    · intro j hj
      by_cases hji : j = i
      · subst hji; exact le_refl _
      · exact le_of_lt (hstr j hj hji)
    · intro j hj
      exact hstr j (Nat.lt_trans hj h) (Nat.ne_of_lt hj)
  match hm : maxByFirst f l with
  | none =>
    rw [maxByFirst_eq_none_iff] at hm
    subst hm
    exact absurd h (by simp)
  | some m =>
    obtain ⟨i', h', hget, hfm'⟩ := maxByFirst_isFirstMax hm
    have := isFirstMax_unique hfm' hfm
    subst this
    rw [← hget]

/-! ## Alpha-beta pruning equivalence: the fail-hard value relationship -/

/-- The fail-hard relationship between the pruned value `f` and the
unpruned value `u` of the same node for a window `(a, b)`: a fail-low
result bounds `u` from above, a fail-high result bounds it from below, and
an in-window result is exact. -/
def KMrel (f u a b : EInt) : Prop :=
  (f ≤ a → u ≤ f) ∧ (b ≤ f → f ≤ u) ∧ (a < f → f < b → f = u)

theorem KMrel_refl (x a b : EInt) : KMrel x x a b :=
  ⟨fun _ => le_refl x, fun _ => le_refl x, fun _ _ => rfl⟩

theorem maxFoldG_ge_acc {σ α : Type} (g : Game σ α) (cv : σ → EInt) :
    ∀ (cs : List α) (s : σ) (value : EInt), value ≤ maxFoldG g cv cs s value
  | [], _, _ => le_refl _
  | c :: rest, s, value =>
    le_trans (le_max_left _ _) (maxFoldG_ge_acc g cv rest s _)

theorem minFoldG_le_acc {σ α : Type} (g : Game σ α) (cv : σ → EInt) :
    ∀ (cs : List α) (s : σ) (value : EInt), minFoldG g cv cs s value ≤ value
  | [], _, _ => le_refl _
  | c :: rest, s, value =>
    le_trans (minFoldG_le_acc g cv rest s _) (min_le_left _ _)

theorem maxLoopG_km {σ α : Type} (g : Game σ α)
    (ce : σ → EInt → EInt → EInt) (cv : σ → EInt)
    (hc : ∀ s a b, a < b → KMrel (ce s a b) (cv s) a b) :
    ∀ (cs : List α) (s : σ) (value a a0 w b : EInt),
      a0 < b → a = max a0 value → value < b → w ≤ value →
      (value ≤ a0 ∨ w = value) →
      KMrel (maxLoopG g ce cs s value a b) (maxFoldG g cv cs s w) a0 b := by
  intro cs
  induction cs with
  | nil =>
    intro s value a a0 w b ha0b ha hvb hw h4
    simp only [maxLoopG, maxFoldG]
    refine ⟨fun _ => hw, fun h => absurd (lt_of_le_of_lt h hvb) (lt_irrefl b), ?_⟩
    intro h1 _
    rcases h4 with h4 | h4
    · exact absurd h1 (not_lt_of_le h4)
    · exact h4.symm
  | cons c rest ih =>
    intro s value a a0 w b ha0b ha hvb hw h4
    simp only [maxLoopG, maxFoldG]
    have hab : a < b := by
      rw [ha]; exact max_lt ha0b hvb
    have hca := hc (g.result s c) a b hab
    set mf := ce (g.result s c) a b with hmf_def
    set m := cv (g.result s c) with hm_def
    by_cases hbv : b ≤ max value mf
    · rw [if_pos hbv]
      have hvne : max value mf = mf := by
        rcases max_choice value mf with h | h
        · exact absurd (lt_of_le_of_lt (h ▸ hbv) hvb) (lt_irrefl b)
        · exact h
      refine ⟨?_, ?_, ?_⟩
      · intro h
        exact absurd (lt_of_le_of_lt (le_trans hbv h) ha0b) (lt_irrefl b)
      · intro _
        have hmm : mf ≤ m := hca.2.1 (hvne ▸ hbv)
        calc max value mf = mf := hvne
        _ ≤ m := hmm
        _ ≤ max w m := le_max_right _ _
        _ ≤ maxFoldG g cv rest s (max w m) := maxFoldG_ge_acc g cv rest s _
      · intro _ h2
        exact absurd (lt_of_le_of_lt hbv h2) (lt_irrefl _)
    · rw [if_neg hbv]
      have hvltb : max value mf < b := not_le.mp hbv
      have hmf_le_v : mf ≤ max value mf := le_max_right _ _
      have hm_le_v : m ≤ max value mf := by
        by_cases hmfa : mf ≤ a
        · exact le_trans (hca.1 hmfa) hmf_le_v
        · have hamf : a < mf := not_le.mp hmfa
          have := hca.2.2 hamf (lt_of_le_of_lt hmf_le_v hvltb)
          exact this ▸ hmf_le_v
      refine ih s (max value mf) (max a (max value mf)) a0 (max w m) b ha0b ?_ hvltb ?_ ?_
      · rw [ha, max_assoc, max_eq_right (le_max_left value mf)]
      · exact max_le (le_trans hw (le_max_left _ _)) hm_le_v
      · by_cases hva0 : max value mf ≤ a0
        · exact Or.inl hva0
        · refine Or.inr ?_
          have ha0v : a0 < max value mf := not_le.mp hva0
          by_cases hvm : value < mf
          · have hveq : max value mf = mf := max_eq_right (le_of_lt hvm)
            have hamf : a < mf := by
              rw [ha]
              exact max_lt (hveq ▸ ha0v) hvm
            have hex := hca.2.2 hamf (hveq ▸ hvltb)
            rw [hveq, ← hex, max_eq_right (le_of_lt (lt_of_le_of_lt hw hvm))]
          · have hveq : max value mf = value := max_eq_left (not_lt.mp hvm)
            rcases h4 with h4 | h4
            · exact absurd (hveq ▸ ha0v) (not_lt_of_le h4)
            · rw [hveq, h4, max_eq_left (hveq ▸ hm_le_v)]

theorem minLoopG_km {σ α : Type} (g : Game σ α)
    (ce : σ → EInt → EInt → EInt) (cv : σ → EInt)
    (hc : ∀ s a b, a < b → KMrel (ce s a b) (cv s) a b) :
    ∀ (cs : List α) (s : σ) (value b b0 w a : EInt),
      a < b0 → b = min b0 value → a < value → value ≤ w →
      (b0 ≤ value ∨ w = value) →
      KMrel (minLoopG g ce cs s value a b) (minFoldG g cv cs s w) a b0 := by
  intro cs
  induction cs with
  | nil =>
    intro s value b b0 w a hab0 hb hav hw h4
    simp only [minLoopG, minFoldG]
    refine ⟨fun h => absurd (lt_of_le_of_lt h hav) (lt_irrefl value), ?_, ?_⟩
    · intro _
      rcases h4 with h4 | h4
      · exact hw
      · exact le_of_eq h4.symm
    · intro _ h2
      rcases h4 with h4 | h4
      · exact absurd h2 (not_lt_of_le h4)
      · exact h4.symm
  | cons c rest ih =>
    intro s value b b0 w a hab0 hb hav hw h4
    simp only [minLoopG, minFoldG]
    have hab : a < b := by
      rw [hb]; exact lt_min hab0 hav
    have hca := hc (g.result s c) a b hab
    set mf := ce (g.result s c) a b with hmf_def
    set m := cv (g.result s c) with hm_def
    by_cases hva : min value mf ≤ a
    · rw [if_pos hva]
      have hvne : min value mf = mf := by
        rcases min_choice value mf with h | h
        · exact absurd (lt_of_le_of_lt (h ▸ hva) hav) (lt_irrefl value)
        · exact h
      refine ⟨?_, ?_, ?_⟩
      · intro _
        have hmm : m ≤ mf := hca.1 (hvne ▸ hva)
        calc minFoldG g cv rest s (min w m) ≤ min w m := minFoldG_le_acc g cv rest s _
        _ ≤ m := min_le_right _ _
        _ ≤ mf := hmm
        _ = min value mf := hvne.symm
      · intro h
        exact absurd (lt_of_lt_of_le hab0 (le_trans h hva)) (lt_irrefl a)
      · intro h1 _
        exact absurd (lt_of_lt_of_le h1 hva) (lt_irrefl a)
    · rw [if_neg hva]
      have haltv : a < min value mf := not_le.mp hva
      have hv_le_mf : min value mf ≤ mf := min_le_right _ _
      have hv_le_m : min value mf ≤ m := by
        by_cases hbmf : b ≤ mf
        · exact le_trans hv_le_mf (hca.2.1 hbmf)
        · have hmfb : mf < b := not_le.mp hbmf
          have := hca.2.2 (lt_of_lt_of_le haltv hv_le_mf) hmfb
          exact this ▸ hv_le_mf
      refine ih s (min value mf) (min b (min value mf)) b0 (min w m) a hab0 ?_ haltv ?_ ?_
      · rw [hb, min_assoc, min_eq_right (min_le_left value mf)]
      · exact le_min (le_trans (min_le_left _ _) hw) hv_le_m
      · by_cases hb0v : b0 ≤ min value mf
        · exact Or.inl hb0v
        · refine Or.inr ?_
          have hvb0 : min value mf < b0 := not_le.mp hb0v
          by_cases hvm : mf < value
          · have hveq : min value mf = mf := min_eq_right (le_of_lt hvm)
            have hmfb : mf < b := by
              rw [hb]
              exact lt_min (hveq ▸ hvb0) hvm
            have hex := hca.2.2 (hveq ▸ haltv) hmfb
            rw [hveq, ← hex, min_eq_right (le_of_lt (lt_of_lt_of_le hvm hw))]
          · have hveq : min value mf = value := min_eq_left (not_lt.mp hvm)
            rcases h4 with h4 | h4
            · exact absurd (hveq ▸ hvb0) (not_lt_of_le h4)
            · rw [hveq, h4, min_eq_left (hveq ▸ hv_le_m)]

theorem abVal_km {σ α : Type} (g : Game σ α) (pid : ℕ) :
    ∀ (d : ℕ) (isMax : Bool) (s : σ) (a b : EInt), a < b →
      KMrel (abVal g pid d isMax s a b) (mmVal g pid d isMax s) a b := by
  intro d
  induction d with
  | zero =>
    intro isMax s a b _
    by_cases ht : g.terminalTest s <;> simp [abVal, mmVal, ht, KMrel_refl]
  | succ d ihd =>
    intro isMax s a b hab
    by_cases ht : g.terminalTest s
    · simp [abVal, mmVal, ht, KMrel_refl]
    · cases isMax with
      | true =>
        simp only [abVal, mmVal, ht, Bool.false_eq_true, if_false, if_true]
        exact maxLoopG_km g _ _ (fun s' a' b' h' => ihd false s' a' b' h')
          (g.actions s) s ⊥ a a ⊥ b hab (max_eq_left bot_le).symm
          (lt_of_le_of_lt bot_le hab) (le_refl ⊥) (Or.inl bot_le)
      | false =>
        simp only [abVal, mmVal, ht, Bool.false_eq_true, if_false, if_true]
        exact minLoopG_km g _ _ (fun s' a' b' h' => ihd true s' a' b' h')
          (g.actions s) s ⊤ b b ⊤ a hab (min_eq_left le_top).symm
          (lt_of_lt_of_le hab le_top) (le_refl ⊤) (Or.inl le_top)

/-! ## Value bounds: on a well-formed game all inner values are finite -/

theorem maxLoopG_bounds {σ α : Type} (g : Game σ α)
    (ce : σ → EInt → EInt → EInt)
    (hce : ∀ s a b, a < ⊤ → ⊥ < b → ⊥ < ce s a b ∧ ce s a b < ⊤) :
    ∀ (cs : List α) (s : σ) (value a b : EInt), a < ⊤ → ⊥ < b → value < ⊤ →
      maxLoopG g ce cs s value a b < ⊤ ∧
      value ≤ maxLoopG g ce cs s value a b ∧
      ((cs ≠ [] ∨ ⊥ < value) → ⊥ < maxLoopG g ce cs s value a b) := by
  intro cs
  induction cs with
  | nil =>
    intro s value a b _ _ hvt
    refine ⟨hvt, le_refl _, ?_⟩
    intro h
    rcases h with h | h
    · exact absurd rfl h
    · exact h
  | cons c rest ih =>
    intro s value a b hat hbb hvt
    simp only [maxLoopG]
    obtain ⟨hmf1, hmf2⟩ := hce (g.result s c) a b hat hbb
    have hv't : max value (ce (g.result s c) a b) < ⊤ := max_lt hvt hmf2
    by_cases hbv : b ≤ max value (ce (g.result s c) a b)
    · rw [if_pos hbv]
      exact ⟨hv't, le_max_left _ _, fun _ => lt_of_lt_of_le hbb hbv⟩
    · rw [if_neg hbv]
      obtain ⟨h1, h2, h3⟩ := ih s (max value (ce (g.result s c) a b))
        (max a (max value (ce (g.result s c) a b))) b (max_lt hat hv't) hbb hv't
      exact ⟨h1, le_trans (le_max_left _ _) h2,
        fun _ => h3 (Or.inr (lt_of_lt_of_le hmf1 (le_max_right _ _)))⟩

theorem minLoopG_bounds {σ α : Type} (g : Game σ α)
    (ce : σ → EInt → EInt → EInt)
    (hce : ∀ s a b, a < ⊤ → ⊥ < b → ⊥ < ce s a b ∧ ce s a b < ⊤) :
    ∀ (cs : List α) (s : σ) (value a b : EInt), a < ⊤ → ⊥ < b → ⊥ < value →
      ⊥ < minLoopG g ce cs s value a b ∧
      minLoopG g ce cs s value a b ≤ value ∧
      ((cs ≠ [] ∨ value < ⊤) → minLoopG g ce cs s value a b < ⊤) := by
  intro cs
  induction cs with
  | nil =>
    intro s value a b _ _ hbv
    refine ⟨hbv, le_refl _, ?_⟩
    intro h
    rcases h with h | h
    · exact absurd rfl h
    · exact h
  | cons c rest ih =>
    intro s value a b hat hbb hbv
    simp only [minLoopG]
    obtain ⟨hmf1, hmf2⟩ := hce (g.result s c) a b hat hbb
    have hbv' : ⊥ < min value (ce (g.result s c) a b) := lt_min hbv hmf1
    by_cases hva : min value (ce (g.result s c) a b) ≤ a
    · rw [if_pos hva]
      exact ⟨hbv', min_le_left _ _, fun _ => lt_of_le_of_lt hva hat⟩
    · rw [if_neg hva]
      obtain ⟨h1, h2, h3⟩ := ih s (min value (ce (g.result s c) a b))
        a (min b (min value (ce (g.result s c) a b))) hat (lt_min hbb hbv') hbv'
      exact ⟨h1, le_trans h2 (min_le_left _ _),
        fun _ => h3 (Or.inr (lt_of_le_of_lt (min_le_right _ _) hmf2))⟩

theorem abVal_bounds {σ α : Type} (g : Game σ α) (pid : ℕ)
    (hwf : g.WellFormed) :
    ∀ (d : ℕ) (isMax : Bool) (s : σ) (a b : EInt), a < ⊤ → ⊥ < b →
      ⊥ < abVal g pid d isMax s a b ∧ abVal g pid d isMax s a b < ⊤ := by
  intro d
  induction d with
  | zero =>
    intro isMax s a b _ _
    by_cases ht : g.terminalTest s <;>
      simp [abVal, ht, EInt.bot_lt_fin, EInt.fin_lt_top]
  | succ d ihd =>
    intro isMax s a b hat hbb
    by_cases ht : g.terminalTest s
    · simp [abVal, ht, EInt.bot_lt_fin, EInt.fin_lt_top]
    · have hne : g.actions s ≠ [] := hwf s (by simpa using ht)
      cases isMax with
      | true =>
        simp only [abVal, ht, Bool.false_eq_true, if_false, if_true]
        obtain ⟨h1, h2, h3⟩ := maxLoopG_bounds g _
          (fun s' a' b' h1 h2 => ihd false s' a' b' h1 h2)
          (g.actions s) s ⊥ a b hat hbb EInt.bot_lt_top
        exact ⟨h3 (Or.inl hne), h1⟩
      | false =>
        simp only [abVal, ht, Bool.false_eq_true, if_false, if_true]
        obtain ⟨h1, h2, h3⟩ := minLoopG_bounds g _
          (fun s' a' b' h1 h2 => ihd true s' a' b' h1 h2)
          (g.actions s) s ⊤ a b hat hbb EInt.bot_lt_top
        exact ⟨h1, h3 (Or.inl hne)⟩

/-! ## Top-level pruning equivalence -/

theorem abLoop_eq_mmLoop {σ α : Type} (g : Game σ α) (pid : ℕ)
    (hwf : g.WellFormed) (d' : ℕ) :
    ∀ (cs : List α) (s : σ) (bS : EInt) (best : Option α), bS < ⊤ →
      abLoop g pid d' cs s bS ⊤ bS best = mmLoop g pid d' cs s bS best := by
  intro cs
  induction cs with
  | nil =>
    intro s bS best _
    simp [abLoop, mmLoop]
  | cons c rest ih =>
    intro s bS best hbS
    simp only [abLoop, mmLoop, minValue]
    have km := abVal_km g pid d' false (g.result s c) bS ⊤ hbS
    have hb := abVal_bounds g pid hwf d' false (g.result s c) bS ⊤ hbS
      EInt.bot_lt_top
    by_cases hlt : bS < abVal g pid d' false (g.result s c) bS ⊤
    · have hexact : abVal g pid d' false (g.result s c) bS ⊤ =
          mmVal g pid d' false (g.result s c) := km.2.2 hlt hb.2
      rw [if_pos hlt, if_pos (hexact ▸ hlt),
        max_eq_right (le_of_lt hlt), ← hexact]
      exact ih s _ (some c) hb.2
    · have hle : abVal g pid d' false (g.result s c) bS ⊤ ≤ bS := not_lt.mp hlt
      have hule : mmVal g pid d' false (g.result s c) ≤ bS :=
        le_trans (km.1 hle) hle
      rw [if_neg hlt, if_neg (not_lt_of_le hule), max_eq_left hle]
      exact ih s bS best hbS

/-- The pruning equivalence (for every state and depth once the game is
well formed). -/
theorem alpha_beta_eq_minimax {σ α : Type} (g : Game σ α) (pid : ℕ)
    (hwf : g.WellFormed) (s : σ) (d : ℕ) :
    alpha_beta g pid s d = minimax_move g pid s d := by
  unfold alpha_beta minimax_move
  exact abLoop_eq_mmLoop g pid hwf (d - 1) (g.actions s) s ⊥ none EInt.bot_lt_top

/-! ## The top-level search always returns a legal action -/

theorem abLoop_isSome {σ α : Type} (g : Game σ α) (pid d' : ℕ) :
    ∀ (cs : List α) (s : σ) (alpha beta bS : EInt) (best : Option α),
      best ≠ none → abLoop g pid d' cs s alpha beta bS best ≠ none := by
  intro cs
  induction cs with
  | nil => intro s alpha beta bS best h; simpa [abLoop] using h
  | cons c rest ih =>
    intro s alpha beta bS best h
    simp only [abLoop]
    by_cases hlt : bS < minValue g pid d' (g.result s c) alpha beta
    · rw [if_pos hlt]; exact ih s _ _ _ _ (by simp)
    · rw [if_neg hlt]; exact ih s _ _ _ _ h

theorem abLoop_mem {σ α : Type} (g : Game σ α) (pid d' : ℕ) :
    ∀ (cs : List α) (s : σ) (alpha beta bS : EInt) (best : Option α) (x : α),
      abLoop g pid d' cs s alpha beta bS best = some x →
      best = some x ∨ x ∈ cs := by
  intro cs
  induction cs with
  | nil => intro s alpha beta bS best x h; exact Or.inl (by simpa [abLoop] using h)
  | cons c rest ih =>
    intro s alpha beta bS best x h
    simp only [abLoop] at h
    by_cases hlt : bS < minValue g pid d' (g.result s c) alpha beta
    · rw [if_pos hlt] at h
      rcases ih s _ _ _ _ _ h with h1 | h1
      · exact Or.inr (by simp [Option.some_inj.mp h1.symm])
      · exact Or.inr (List.mem_cons_of_mem c h1)
    · rw [if_neg hlt] at h
      rcases ih s _ _ _ _ _ h with h1 | h1
      · exact Or.inl h1
      · exact Or.inr (List.mem_cons_of_mem c h1)

/-- On a well-formed game and a non-terminal state, `alpha_beta` returns
`some` legal action, at every depth. -/
theorem alpha_beta_some {σ α : Type} (g : Game σ α) (pid : ℕ)
    (hwf : g.WellFormed) (s : σ) (hnt : g.terminalTest s = false) (d : ℕ) :
    ∃ a, alpha_beta g pid s d = some a ∧ a ∈ g.actions s := by
  have hne := hwf s hnt
  unfold alpha_beta
  match hcs : g.actions s with
  | [] => exact absurd hcs hne
  | c :: rest =>
    have hv := (abVal_bounds g pid hwf (d - 1) false (g.result s c) ⊥ ⊤
      EInt.bot_lt_top EInt.bot_lt_top).1
    have hres : abLoop g pid (d - 1) (c :: rest) s ⊥ ⊤ ⊥ none =
        abLoop g pid (d - 1) rest s (max ⊥ (minValue g pid (d - 1) (g.result s c) ⊥ ⊤)) ⊤
          (minValue g pid (d - 1) (g.result s c) ⊥ ⊤) (some c) := by
      simp only [abLoop]
      rw [if_pos (show (⊥ : EInt) < minValue g pid (d - 1) (g.result s c) ⊥ ⊤ from hv)]
    match hx : abLoop g pid (d - 1) (c :: rest) s ⊥ ⊤ ⊥ none with
    | none =>
      rw [hres] at hx
      exact absurd hx (abLoop_isSome g pid (d - 1) rest s _ _ _ (some c) (by simp))
    | some x =>
      refine ⟨x, rfl, ?_⟩
      rw [hres] at hx
      rcases abLoop_mem g pid (d - 1) rest s _ _ _ _ x hx with h1 | h1
      · simp [Option.some_inj.mp h1.symm]
      · exact List.mem_cons_of_mem c h1

/-! ## Fuel adequacy: the recursion terminates with fuel beyond the depth -/

theorem maxLoopGF_eq {σ α : Type} (g : Game σ α)
    (ceF : σ → EInt → EInt → Option EInt) (ce : σ → EInt → EInt → EInt)
    (hce : ∀ s a b, ceF s a b = some (ce s a b)) :
    ∀ (cs : List α) (s : σ) (value a b : EInt),
      maxLoopGF g ceF cs s value a b = some (maxLoopG g ce cs s value a b) := by
  intro cs
  induction cs with
  | nil => intro s value a b; simp [maxLoopGF, maxLoopG]
  | cons c rest ih =>
    intro s value a b
    simp only [maxLoopGF, maxLoopG, hce]
    by_cases hbv : b ≤ max value (ce (g.result s c) a b)
    · rw [if_pos hbv, if_pos hbv]
    · rw [if_neg hbv, if_neg hbv]
      exact ih s _ _ _

theorem minLoopGF_eq {σ α : Type} (g : Game σ α)
    (ceF : σ → EInt → EInt → Option EInt) (ce : σ → EInt → EInt → EInt)
    (hce : ∀ s a b, ceF s a b = some (ce s a b)) :
    ∀ (cs : List α) (s : σ) (value a b : EInt),
      minLoopGF g ceF cs s value a b = some (minLoopG g ce cs s value a b) := by
  intro cs
  induction cs with
  | nil => intro s value a b; simp [minLoopGF, minLoopG]
  | cons c rest ih =>
    intro s value a b
    simp only [minLoopGF, minLoopG, hce]
    by_cases hva : min value (ce (g.result s c) a b) ≤ a
    · rw [if_pos hva, if_pos hva]
    · rw [if_neg hva, if_neg hva]
      exact ih s _ _ _

theorem abValF_eq {σ α : Type} (g : Game σ α) (pid : ℕ) :
    ∀ (d f : ℕ), d < f → ∀ (isMax : Bool) (s : σ) (a b : EInt),
      abValF g pid f d isMax s a b = some (abVal g pid d isMax s a b) := by
  intro d
  induction d with
  | zero =>
    intro f hf isMax s a b
    match f, hf with
    | f + 1, _ =>
      by_cases ht : g.terminalTest s <;> simp [abValF, abVal, ht]
  | succ d ihd =>
    intro f hf isMax s a b
    match f, hf with
    | f + 1, hf =>
      have hd : d < f := Nat.lt_of_succ_lt_succ hf
      by_cases ht : g.terminalTest s
      · simp [abValF, abVal, ht]
      · cases isMax with
        | true =>
          simp only [abValF, abVal, ht, Bool.false_eq_true, if_false, if_true]
          exact maxLoopGF_eq g _ _ (fun s' a' b' => ihd f hd false s' a' b')
            (g.actions s) s ⊥ a b
        | false =>
          simp only [abValF, abVal, ht, Bool.false_eq_true, if_false, if_true]
          exact minLoopGF_eq g _ _ (fun s' a' b' => ihd f hd true s' a' b')
            (g.actions s) s ⊤ a b

theorem abLoopF_eq {σ α : Type} (g : Game σ α) (pid : ℕ) (f d' : ℕ)
    (hf : d' < f) :
    ∀ (cs : List α) (s : σ) (alpha beta bS : EInt) (best : Option α),
      abLoopF g pid f d' cs s alpha beta bS best =
        some (abLoop g pid d' cs s alpha beta bS best) := by
  intro cs
  induction cs with
  | nil => intro s alpha beta bS best; simp [abLoopF, abLoop]
  | cons c rest ih =>
    intro s alpha beta bS best
    simp only [abLoopF, abLoop, minValueF, minValue, abValF_eq g pid d' f hf]
    by_cases hlt : bS < abVal g pid d' false (g.result s c) alpha beta
    · rw [if_pos hlt, if_pos hlt]
      exact ih s _ _ _ _
    · rw [if_neg hlt, if_neg hlt]
      exact ih s _ _ _ _

theorem alpha_betaF_eq {σ α : Type} (g : Game σ α) (pid f : ℕ) (s : σ)
    (depth : ℕ) (hf : depth - 1 < f) :
    alpha_betaF g pid f s depth = some (alpha_beta g pid s depth) :=
  abLoopF_eq g pid f (depth - 1) hf (g.actions s) s ⊥ ⊤ ⊥ none

/-! ## Backpropagation along the parent chain -/

theorem back_prop_get? {σ : Type} (sc : ℤ) :
    ∀ (chain : List (NStats σ)) (i : ℕ),
      (back_prop sc chain).get? i = (chain.get? i).map
        (fun n => { n with visit_count := n.visit_count + 1,
                           win_score := n.win_score + sc }) := by
  intro chain
  induction chain with
  | nil => intro i; simp [back_prop]
  | cons n rest ih =>
    intro i
    match i with
    | 0 => simp [back_prop]
    | i + 1 => simpa [back_prop] using ih i

theorem simulate_backprop_cons {σ α : Type} (g : Game σ α) (rolls : ℕ → ℕ)
    (fuel : ℕ) (e : NStats σ) (rest : List (NStats σ)) :
    simulate_backprop g rolls fuel (e :: rest) =
      { e with visit_count := e.visit_count + 1,
               win_score := e.win_score + rollout_score g rolls fuel e +
                 (if g.terminalTest e.state then rollout_score g rolls fuel e
                  else 0) } ::
        back_prop (rollout_score g rolls fuel e) rest := by
  by_cases ht : g.terminalTest e.state
  · simp [simulate_backprop, random_playout, rollout_score, ht, back_prop]
  · simp [simulate_backprop, random_playout, rollout_score, ht, back_prop]

/-! ## Iterative deepening -/

theorem abIterRun_spec {σ α : Type} (g : Game σ α) (pid : ℕ) (s : σ) :
    ∀ n : ℕ, (abIterRun g pid s n).1 = n + 2 ∧
      (abIterRun g pid s n).2 = alpha_beta g pid s (n + 2) := by
  intro n
  induction n with
  | zero => simp [abIterRun, alpha_beta_iter_step]
  | succ n ih =>
    simp [abIterRun, alpha_beta_iter_step, ih.1, Nat.add_right_comm]

/-! ## MCTS tree lemmas -/

theorem random_playout_stats {σ α : Type} (g : Game σ α) (rolls : ℕ → ℕ)
    (fuel : ℕ) (st : NStats σ) :
    (random_playout g rolls fuel st).1.state = st.state ∧
    (random_playout g rolls fuel st).1.player_id = st.player_id ∧
    (random_playout g rolls fuel st).1.visit_count = st.visit_count := by
  by_cases ht : g.terminalTest st.state <;> simp [random_playout, ht]

theorem expandChildren_children {σ α : Type} (g : Game σ α) (s : σ)
    (pid : ℕ) : ∀ x ∈ expandChildren g s pid, x.children = [] ∧
      x.visit = 0 ∧ x.win = 0 ∧ x.pid = pid := by
  intro x hx
  simp only [expandChildren, List.mem_map] at hx
  obtain ⟨a, _, rfl⟩ := hx
  simp [MTree.children, MTree.visit, MTree.win, MTree.pid]

theorem invVisitL_mem {σ α : Type} :
    ∀ {cs : List (MTree σ α)}, invVisitL cs = true →
      ∀ c ∈ cs, invVisit c = true := by
  intro cs
  induction cs with
  | nil => intro _ c hc; exact absurd hc (List.not_mem_nil c)
  | cons c0 rest ih =>
    intro h c hc
    rw [invVisitL, Bool.and_eq_true] at h
    rcases List.mem_cons.mp hc with rfl | hc
    · exact h.1
    · exact ih h.2 c hc

theorem invVisitL_set {σ α : Type} :
    ∀ (cs : List (MTree σ α)) (i : ℕ) (c' : MTree σ α),
      invVisitL cs = true → invVisit c' = true →
      invVisitL (cs.set i c') = true := by
  intro cs
  induction cs with
  | nil => intro i c' h _; simpa using h
  | cons c0 rest ih =>
    intro i c' h hc'
    rw [invVisitL, Bool.and_eq_true] at h
    match i with
    | 0 => simp only [List.set]; rw [invVisitL, Bool.and_eq_true]; exact ⟨hc', h.2⟩
    | i + 1 =>
      simp only [List.set]
      rw [invVisitL, Bool.and_eq_true]
      exact ⟨h.1, ih i c' h.2 hc'⟩

theorem invVisit_of_childless {σ α : Type} (t : MTree σ α)
    (h : t.children = []) : invVisit t = true := by
  match t with
  | .node s pid v w a cs =>
    simp only [MTree.children] at h
    subst h
    simp [invVisit, invVisitL]

theorem invVisitL_expand {σ α : Type} (g : Game σ α) (s : σ) (pid : ℕ) :
    invVisitL (expandChildren g s pid) = true := by
  have : ∀ l : List α, invVisitL (l.map
      (fun a => MTree.node (g.result s a) pid 0 0 (some a) [])) = true := by
    intro l
    induction l with
    | nil => simp [invVisitL]
    | cons a rest ih =>
      simp only [List.map, invVisitL, Bool.and_eq_true]
      exact ⟨by simp [invVisit, invVisitL], ih⟩
  exact this (g.actions s)

theorem termChildlessL_mem {σ α : Type} (g : Game σ α) :
    ∀ {cs : List (MTree σ α)}, termChildlessL g cs = true →
      ∀ c ∈ cs, termChildless g c = true := by
  intro cs
  induction cs with
  | nil => intro _ c hc; exact absurd hc (List.not_mem_nil c)
  | cons c0 rest ih =>
    intro h c hc
    rw [termChildlessL, Bool.and_eq_true] at h
    rcases List.mem_cons.mp hc with rfl | hc
    · exact h.1
    · exact ih h.2 c hc

theorem termChildlessL_set {σ α : Type} (g : Game σ α) :
    ∀ (cs : List (MTree σ α)) (i : ℕ) (c' : MTree σ α),
      termChildlessL g cs = true → termChildless g c' = true →
      termChildlessL g (cs.set i c') = true := by
  intro cs
  induction cs with
  | nil => intro i c' h _; simpa using h
  | cons c0 rest ih =>
    intro i c' h hc'
    rw [termChildlessL, Bool.and_eq_true] at h
    match i with
    | 0 =>
      simp only [List.set]
      rw [termChildlessL, Bool.and_eq_true]
      exact ⟨hc', h.2⟩
    | i + 1 =>
      simp only [List.set]
      rw [termChildlessL, Bool.and_eq_true]
      exact ⟨h.1, ih i c' h.2 hc'⟩

theorem termChildless_of_childless {σ α : Type} (g : Game σ α)
    (t : MTree σ α) (h : t.children = []) : termChildless g t = true := by
  match t with
  | .node s pid v w a cs =>
    simp only [MTree.children] at h
    subst h
    simp [termChildless, termChildlessL]

theorem termChildlessL_expand {σ α : Type} (g : Game σ α) (s : σ)
    (pid : ℕ) : termChildlessL g (expandChildren g s pid) = true := by
  have : ∀ l : List α, termChildlessL g (l.map
      (fun a => MTree.node (g.result s a) pid 0 0 (some a) [])) = true := by
    intro l
    induction l with
    | nil => simp [termChildlessL]
    | cons a rest ih =>
      simp only [List.map, termChildlessL, Bool.and_eq_true]
      exact ⟨by simp [termChildless, termChildlessL], ih⟩
  exact this (g.actions s)

theorem descend_invVisit {σ α : Type} (g : Game σ α) (rolls : ℕ → ℕ)
    (fuel pick : ℕ) :
    ∀ (n : ℕ) (t : MTree σ α), sizeOf t ≤ n → invVisit t = true →
      invVisit (descend g rolls fuel pick t).1 = true := by
  intro n
  induction n with
  | zero =>
    intro t hsz _
    cases t with
    | node s pid v w a cs =>
      simp only [MTree.node.sizeOf_spec] at hsz
      omega
  | succ n ih =>
    intro t hsz hinv
    cases t with
    | node s pid v w a cs =>
      match cs with
      | [] =>
        by_cases ht : g.terminalTest s
        · simp only [descend, ht, if_true]
          exact invVisit_of_childless _ rfl
        · rcases hex : expandChildren g s pid with _ | ⟨e0, es⟩
          · simp only [descend, ht, if_false, hex, Bool.false_eq_true]
            exact invVisit_of_childless _ rfl
          · simp only [descend, ht, if_false, hex, Bool.false_eq_true]
            rw [invVisit, Bool.and_eq_true]
            refine ⟨by simp, ?_⟩
            apply invVisitL_set
            · exact hex ▸ invVisitL_expand g s pid
            · apply invVisit_of_childless
              have hmem : (e0 :: es).get
                  ⟨pick % (e0 :: es).length, Nat.mod_lt _ (by simp)⟩ ∈
                    expandChildren g s pid := by
                rw [hex]; exact List.get_mem _ _ _
              have := (expandChildren_children g s pid _ hmem).1
              simpa [MTree.children] using this
      | c0 :: cs0 =>
        simp only [descend]
        rw [invVisit] at hinv
        rw [Bool.and_eq_true] at hinv
        rw [invVisit, Bool.and_eq_true]
        refine ⟨by simp, ?_⟩
        apply invVisitL_set _ _ _ hinv.2
        have hmem : (c0 :: cs0).get
            ⟨argmaxIdx (fun c => uct v c.win c.visit) (c0 :: cs0) % (c0 :: cs0).length,
              Nat.mod_lt _ (by simp)⟩ ∈ c0 :: cs0 := List.get_mem _ _ _
        have hszc : sizeOf ((c0 :: cs0).get
            ⟨argmaxIdx (fun c => uct v c.win c.visit) (c0 :: cs0) % (c0 :: cs0).length,
              Nat.mod_lt _ (by simp)⟩) ≤ n := by
          have := List.sizeOf_lt_of_mem hmem
          simp only [MTree.node.sizeOf_spec] at hsz
          omega
        exact ih _ hszc (invVisitL_mem hinv.2 _ hmem)

theorem descend_termChildless {σ α : Type} (g : Game σ α) (rolls : ℕ → ℕ)
    (fuel pick : ℕ) :
    ∀ (n : ℕ) (t : MTree σ α), sizeOf t ≤ n → termChildless g t = true →
      termChildless g (descend g rolls fuel pick t).1 = true := by
  intro n
  induction n with
  | zero =>
    intro t hsz _
    cases t with
    | node s pid v w a cs =>
      simp only [MTree.node.sizeOf_spec] at hsz
      omega
  | succ n ih =>
    intro t hsz hinv
    cases t with
    | node s pid v w a cs =>
      match cs with
      | [] =>
        by_cases ht : g.terminalTest s
        · simp only [descend, ht, if_true]
          exact termChildless_of_childless g _ rfl
        · rcases hex : expandChildren g s pid with _ | ⟨e0, es⟩
          · simp only [descend, ht, if_false, hex, Bool.false_eq_true]
            exact termChildless_of_childless g _ rfl
          · simp only [descend, ht, if_false, hex, Bool.false_eq_true]
            rw [termChildless, Bool.and_eq_true]
            refine ⟨by simp [ht], ?_⟩
            apply termChildlessL_set
            · exact hex ▸ termChildlessL_expand g s pid
            · apply termChildless_of_childless
              have hmem : (e0 :: es).get
                  ⟨pick % (e0 :: es).length, Nat.mod_lt _ (by simp)⟩ ∈
                    expandChildren g s pid := by
                rw [hex]; exact List.get_mem _ _ _
              have := (expandChildren_children g s pid _ hmem).1
              simpa [MTree.children] using this
      | c0 :: cs0 =>
        simp only [descend]
        rw [termChildless] at hinv
        rw [Bool.and_eq_true] at hinv
        rw [termChildless, Bool.and_eq_true]
        have hnt : (!g.terminalTest s) = true := by
          rcases Bool.or_eq_true_iff.mp hinv.1 with h | h
          · exact h
          · simpa using h
        refine ⟨by simp [hnt], ?_⟩
        apply termChildlessL_set _ _ _ _ hinv.2
        have hmem : (c0 :: cs0).get
            ⟨argmaxIdx (fun c => uct v c.win c.visit) (c0 :: cs0) % (c0 :: cs0).length,
              Nat.mod_lt _ (by simp)⟩ ∈ c0 :: cs0 := List.get_mem _ _ _
        have hszc : sizeOf ((c0 :: cs0).get
            ⟨argmaxIdx (fun c => uct v c.win c.visit) (c0 :: cs0) % (c0 :: cs0).length,
              Nat.mod_lt _ (by simp)⟩) ≤ n := by
          have := List.sizeOf_lt_of_mem hmem
          simp only [MTree.node.sizeOf_spec] at hsz
          omega
        exact ih _ hszc (termChildlessL_mem g hinv.2 _ hmem)

theorem maxByFirst_of_isFirstMax {β K : Type} [LinearOrder K] {f : β → K}
    {l : List β} {i : ℕ} (h : i < l.length) (hfm : IsFirstMax f l i) :
    maxByFirst f l = some (l.get ⟨i, h⟩) := by
  match hm : maxByFirst f l with
  | none =>
    rw [maxByFirst_eq_none_iff] at hm
    subst hm
    exact absurd h (by simp)
  | some m =>
    obtain ⟨i', h', hget, hfm'⟩ := maxByFirst_isFirstMax hm
    have := isFirstMax_unique hfm' hfm
    subst this
    rw [← hget]

theorem best_node_argmax {σ α : Type} (t : MTree σ α)
    (hne : t.children ≠ []) :
    best_node t = some (t.children.get
      ⟨argmaxIdx (fun c => uct t.visit c.win c.visit) t.children % t.children.length,
        Nat.mod_lt _ (List.length_pos.mpr hne)⟩) := by
  have hlt := argmaxIdx_lt (fun c => uct t.visit c.win c.visit) t.children hne
  have hmod : argmaxIdx (fun c => uct t.visit c.win c.visit) t.children %
      t.children.length = argmaxIdx (fun c => uct t.visit c.win c.visit) t.children :=
    Nat.mod_eq_of_lt hlt
  simp only [best_node, hmod]
  exact maxByFirst_argmax _ _ hne

theorem selectNodes_spec {σ α : Type} :
    ∀ (n : ℕ) (t : MTree σ α), sizeOf t ≤ n → invVisit t = true →
      ∀ u ∈ selectNodes t, u.children ≠ [] ∧ 1 ≤ u.visit := by
  intro n
  induction n with
  | zero =>
    intro t hsz _
    cases t with
    | node s pid v w a cs =>
      simp only [MTree.node.sizeOf_spec] at hsz
      omega
  | succ n ih =>
    intro t hsz hinv
    cases t with
    | node s pid v w a cs =>
      match cs with
      | [] =>
        intro u hu
        simp [selectNodes] at hu
      | c0 :: cs0 =>
        intro u hu
        simp only [selectNodes, List.mem_cons] at hu
        rw [invVisit, Bool.and_eq_true] at hinv
        rcases hu with rfl | hu
        · refine ⟨by simp [MTree.children], ?_⟩
          rcases Bool.or_eq_true_iff.mp hinv.1 with h | h
          · simp at h
          · simpa [MTree.visit] using of_decide_eq_true h
        · have hmem : (c0 :: cs0).get
              ⟨argmaxIdx (fun c => uct v c.win c.visit) (c0 :: cs0) % (c0 :: cs0).length,
                Nat.mod_lt _ (by simp)⟩ ∈ c0 :: cs0 := List.get_mem _ _ _
          have hszc : sizeOf ((c0 :: cs0).get
              ⟨argmaxIdx (fun c => uct v c.win c.visit) (c0 :: cs0) % (c0 :: cs0).length,
                Nat.mod_lt _ (by simp)⟩) ≤ n := by
            have := List.sizeOf_lt_of_mem hmem
            simp only [MTree.node.sizeOf_spec] at hsz
            omega
          exact ih _ hszc (invVisitL_mem hinv.2 _ hmem) u hu

theorem expandChildren_act {σ α : Type} (g : Game σ α) (s : σ) (pid : ℕ) :
    ∀ x ∈ expandChildren g s pid, ∃ a ∈ g.actions s, x.act = some a := by
  intro x hx
  simp only [expandChildren, List.mem_map] at hx
  obtain ⟨a, ha, rfl⟩ := hx
  exact ⟨a, ha, rfl⟩

theorem descend_on_leaf {σ α : Type} (g : Game σ α) (rolls : ℕ → ℕ)
    (fuel pick : ℕ) (s : σ) (pid v : ℕ) (w : ℤ) (a : Option α)
    (hnt : g.terminalTest s = false) (e0 : MTree σ α) (es : List (MTree σ α))
    (hex : expandChildren g s pid = e0 :: es) :
    descend g rolls fuel pick (MTree.node s pid v w a []) =
      (let i := pick % (e0 :: es).length
       let e := (e0 :: es).get ⟨i, Nat.mod_lt _ (by simp)⟩
       let p := random_playout g rolls fuel ⟨e.state, e.pid, e.visit, e.win⟩
       (MTree.node s pid (v + 1) (w + p.2) a
          ((e0 :: es).set i (MTree.node e.state e.pid (p.1.visit_count + 1)
            (p.1.win_score + p.2) e.act e.children)), p.2)) := by
  simp [descend, hnt, hex]

/-- On the fresh root of a non-terminal state of a well-formed game, the
first MCTS iteration yields a legal action of that state. -/
theorem mcts_step_first {σ α : Type} (g : Game σ α) (rolls : ℕ → ℕ)
    (fuel pick : ℕ) (hwf : g.WellFormed) (s : σ) (pid : ℕ)
    (hnt : g.terminalTest s = false) :
    ∃ a, (mcts_step g rolls fuel pick (freshRoot s pid)).2 = some a ∧
      a ∈ g.actions s := by
  have hne := hwf s hnt
  have hexne : expandChildren g s pid ≠ [] := by
    simp only [expandChildren]
    intro h
    exact hne (List.map_eq_nil.mp h)
  match hex : expandChildren g s pid with
  | [] => exact absurd hex hexne
  | e0 :: es =>
    set i := pick % (e0 :: es).length with hi_def
    have hi : i < (e0 :: es).length := Nat.mod_lt _ (by simp)
    set e := (e0 :: es).get ⟨i, hi⟩ with he_def
    have hemem : e ∈ expandChildren g s pid := by
      rw [hex]; exact List.get_mem _ _ _
    obtain ⟨hech, hev, _, _⟩ := expandChildren_children g s pid e hemem
    obtain ⟨ae, haes, heact⟩ := expandChildren_act g s pid e hemem
    set p := random_playout g rolls fuel ⟨e.state, e.pid, e.visit, e.win⟩ with hp_def
    have hpv : p.1.visit_count = e.visit :=
      (random_playout_stats g rolls fuel _).2.2
    set e' := MTree.node e.state e.pid (p.1.visit_count + 1)
      (p.1.win_score + p.2) e.act e.children with hePrimeDef
    have hset_len : ((e0 :: es).set i e').length = (e0 :: es).length :=
      List.length_set _ _ _
    have hstep : (mcts_step g rolls fuel pick (freshRoot s pid)).2 =
        (best_child (MTree.node s pid (0 + 1) (0 + p.2) none
          ((e0 :: es).set i e'))).bind MTree.act := by
      simp only [mcts_step, freshRoot]
      rw [descend_on_leaf g rolls fuel pick s pid 0 0 none hnt e0 es hex]
    have hbc : best_child (MTree.node s pid (0 + 1) (0 + p.2) none
        ((e0 :: es).set i e')) = some e' := by
      have hgi : ((e0 :: es).set i e').get ⟨i, hset_len ▸ hi⟩ = e' :=
        List.get_set_eq _
      have := maxByFirst_of_strict (fun c : MTree σ α => c.visit)
        ((e0 :: es).set i e') i (hset_len ▸ hi) ?_
      · simpa [best_child, MTree.children, hgi] using this
      · intro j hj hji
        have hgj : ((e0 :: es).set i e').get ⟨j, hj⟩ =
            (e0 :: es).get ⟨j, hset_len ▸ hj⟩ :=
          List.get_set_ne (fun h => hji h.symm) _
        have hjmem : (e0 :: es).get ⟨j, hset_len ▸ hj⟩ ∈ expandChildren g s pid := by
          rw [hex]; exact List.get_mem _ _ _
        have hjv := (expandChildren_children g s pid _ hjmem).2.1
        simp only [hgj, hgi]
        show ((e0 :: es).get ⟨j, hset_len ▸ hj⟩).visit < e'.visit
        rw [hjv]
        simp [hePrimeDef, MTree.visit, hpv, hev]
    refine ⟨ae, ?_, haes⟩
    rw [hstep, hbc]
    simpa [hePrimeDef, MTree.act] using heact

/-- An unvisited child has an infinite UCT value while every visited child
has a finite (real) one, so `best_node` picks the first unvisited child
whenever one exists. -/
theorem best_node_first_unvisited {σ α : Type} (t : MTree σ α) (i : ℕ)
    (h : i < t.children.length) (hz : (t.children.get ⟨i, h⟩).visit = 0)
    (hfirst : ∀ j (hj : j < i), (t.children.get ⟨j, Nat.lt_trans hj h⟩).visit ≠ 0) :
    best_node t = some (t.children.get ⟨i, h⟩) := by
  apply maxByFirst_of_isFirstMax h
  refine ⟨h, ?_, ?_⟩
  · intro j hj
    show uct t.visit (t.children.get ⟨j, hj⟩).win (t.children.get ⟨j, hj⟩).visit ≤
      uct t.visit (t.children.get ⟨i, h⟩).win (t.children.get ⟨i, h⟩).visit
    rw [hz]
    simp [uct]
  · intro j hj
    show uct t.visit (t.children.get ⟨j, Nat.lt_trans hj h⟩).win
        (t.children.get ⟨j, Nat.lt_trans hj h⟩).visit <
      uct t.visit (t.children.get ⟨i, h⟩).win (t.children.get ⟨i, h⟩).visit
    rw [hz]
    simp only [uct, if_pos rfl]
    rw [if_neg (hfirst j hj)]
    exact EReal.coe_lt_top _

/-! ## Claim theorems -/

/-- C1: for every non-terminal state `s` of a well-formed game and every
depth `d ≥ 2`, `alpha_beta(s, d)` returns the same action as an exhaustive
unpruned depth-`d` minimax search from the fixed searching player's
perspective with first-action tie-breaking: pruning never changes the
chosen action. -/
theorem C1_pruning_equivalence {σ α : Type} (g : Game σ α) (pid : ℕ)
    (hwf : g.WellFormed) (s : σ) (d : ℕ)
    (hnt : g.terminalTest s = false) (hd : 2 ≤ d) :
    alpha_beta g pid s d = minimax_move g pid s d :=
  alpha_beta_eq_minimax g pid hwf s d

theorem WG_wf : WG.WellFormed := fun s _ => by simp [WG]

/-- Witness for C1 at a concrete well-formed game, state and depth. -/
theorem C1_pruning_equivalence_witness :
    WG.WellFormed ∧ WG.terminalTest 0 = false ∧ 2 ≤ 2 ∧
      alpha_beta WG 0 0 2 = minimax_move WG 0 0 2 :=
  ⟨WG_wf, by decide, by decide,
    C1_pruning_equivalence WG 0 WG_wf 0 2 (by decide) (by decide)⟩

/-- C2 (counterexample): on a terminal exploration node the code adds the
rollout score twice (once inside `random_playout`, once in `back_prop`), so
`E`'s winScore does not increase by exactly the rollout result. -/
theorem C2_backprop_counterexample :
    rollout_score gT zeroRolls 0 st0 = 1 ∧
    simulate_backprop gT zeroRolls 0 [st0] = [⟨0, 0, 1, 2⟩] ∧
    simulate_backprop gT zeroRolls 0 [st0] ≠
      [{ st0 with visit_count := st0.visit_count + 1,
                  win_score := st0.win_score + rollout_score gT zeroRolls 0 st0 }] := by
  refine ⟨by decide, by decide, by decide⟩

/-- C2 (amended): one simulate-and-backpropagate phase increments every
chain node's visit count by exactly 1 and adds the rollout score exactly
once to every chain node's winScore, except that the exploration node `E`
(the chain's head) additionally receives the rollout score a second time,
directly inside `random_playout`, whenever `E`'s state is terminal. -/
theorem C2_backprop_amended {σ α : Type} (g : Game σ α) (rolls : ℕ → ℕ)
    (fuel : ℕ) (e : NStats σ) (rest : List (NStats σ)) :
    simulate_backprop g rolls fuel (e :: rest) =
      { e with visit_count := e.visit_count + 1,
               win_score := e.win_score + rollout_score g rolls fuel e +
                 (if g.terminalTest e.state then rollout_score g rolls fuel e
                  else 0) } ::
        back_prop (rollout_score g rolls fuel e) rest ∧
    ∀ (chain : List (NStats σ)) (i : ℕ),
      (back_prop (rollout_score g rolls fuel e) chain).get? i =
        (chain.get? i).map
          (fun nd => { nd with visit_count := nd.visit_count + 1,
                               win_score := nd.win_score +
                                 rollout_score g rolls fuel e }) :=
  ⟨simulate_backprop_cons g rolls fuel e rest,
    fun chain i => back_prop_get? _ chain i⟩

/-- C3: on a well-formed game and non-terminal input state, the first value
of each driver — the action yielded by the first complete MCTS iteration on
a fresh root, and the first action yielded by `alpha_beta_iter`, which is
`alpha_beta(state, 2)` — is `some` legal action of the input state. -/
theorem C3_anytime_first {σ α : Type} (g : Game σ α) (pid : ℕ)
    (rolls : ℕ → ℕ) (fuel pick : ℕ) (hwf : g.WellFormed) (s : σ)
    (hnt : g.terminalTest s = false) :
    (∃ a, (mcts_step g rolls fuel pick (freshRoot s pid)).2 = some a ∧
      a ∈ g.actions s) ∧
    (abIterRun g pid s 0).2 = alpha_beta g pid s 2 ∧
    (∃ a, alpha_beta g pid s 2 = some a ∧ a ∈ g.actions s) :=
  ⟨mcts_step_first g rolls fuel pick hwf s pid hnt,
    (abIterRun_spec g pid s 0).2,
    alpha_beta_some g pid hwf s hnt 2⟩

/-- Witness for C3 at a concrete well-formed game and non-terminal state. -/
theorem C3_anytime_first_witness :
    WG.WellFormed ∧ WG.terminalTest 0 = false ∧
    ((∃ a, (mcts_step WG zeroRolls 1 0 (freshRoot 0 0)).2 = some a ∧
        a ∈ WG.actions 0) ∧
      (abIterRun WG 0 0 0).2 = alpha_beta WG 0 0 2 ∧
      (∃ a, alpha_beta WG 0 0 2 = some a ∧ a ∈ WG.actions 0)) :=
  ⟨WG_wf, by decide,
    C3_anytime_first WG 0 zeroRolls 1 0 WG_wf 0 (by decide)⟩

/-- C4: a fresh root satisfies the visit invariant, one MCTS iteration
preserves it, and under it every node reached by the selection walk with
children (exactly the nodes whose children `UCT.best_node` scores, as the
last conjunct identifies the scored child with `best_node`'s choice) has
visit count at least 1, so `ln(parent visits)` is never taken at 0. -/
theorem C4_selection_visit_positive {σ α : Type} (g : Game σ α)
    (rolls : ℕ → ℕ) (fuel pick : ℕ) (s : σ) (pid : ℕ) :
    invVisit (freshRoot (α := α) s pid) = true ∧
    (∀ t : MTree σ α, invVisit t = true →
      invVisit (descend g rolls fuel pick t).1 = true) ∧
    (∀ t : MTree σ α, invVisit t = true →
      ∀ u ∈ selectNodes t, u.children ≠ [] ∧ 1 ≤ u.visit) ∧
    (∀ (t : MTree σ α) (h : t.children ≠ []),
      best_node t = some (t.children.get
        ⟨argmaxIdx (fun c => uct t.visit c.win c.visit) t.children % t.children.length,
          Nat.mod_lt _ (List.length_pos.mpr h)⟩)) := by
  refine ⟨by simp [freshRoot, invVisit, invVisitL], ?_, ?_, ?_⟩
  · exact fun t h => descend_invVisit g rolls fuel pick (sizeOf t) t (le_refl _) h
  · exact fun t h => selectNodes_spec (sizeOf t) t (le_refl _) h
  · exact fun t h => best_node_argmax t h

/-- Witness for C4 at a concrete tree satisfying the invariant. -/
theorem C4_selection_visit_positive_witness :
    invVisit tA = true ∧
    invVisit (descend WG zeroRolls 1 0 tA).1 = true ∧
    (∀ u ∈ selectNodes tA, u.children ≠ [] ∧ 1 ≤ u.visit) := by
  have h : invVisit tA = true := by simp [tA, invVisit, invVisitL]
  exact ⟨h, (C4_selection_visit_positive WG zeroRolls 1 0 0 0).2.1 tA h,
    (C4_selection_visit_positive WG zeroRolls 1 0 0 0).2.2.1 tA h⟩

/-- C5: `uct` is `+∞` exactly on unvisited nodes and otherwise the
exploitation term plus the `0.5 * 1.41`-scaled exploration bonus;
`best_node` is python-`max` by this key, so it returns the child of maximal
value with first-encountered tie-breaking, and an unvisited child (the
first one) is always selected before any visited one. -/
theorem C5_uct_policy {σ α : Type} :
    (∀ (N : ℕ) (w : ℤ), uct N w 0 = ⊤) ∧
    (∀ (N : ℕ) (w : ℤ) (v : ℕ), v ≠ 0 → uct N w v =
      (((w : ℝ) / (v : ℝ) +
        0.5 * 1.41 * Real.sqrt (Real.log (N : ℝ) / (v : ℝ)) : ℝ) : EReal)) ∧
    (∀ t : MTree σ α, best_node t =
      maxByFirst (fun c => uct t.visit c.win c.visit) t.children) ∧
    (∀ t c : MTree σ α, best_node t = some c →
      ∃ i, ∃ h : i < t.children.length, t.children.get ⟨i, h⟩ = c ∧
        IsFirstMax (fun c => uct t.visit c.win c.visit) t.children i) ∧
    (∀ (t : MTree σ α) (i : ℕ) (h : i < t.children.length),
      (t.children.get ⟨i, h⟩).visit = 0 →
      (∀ j (hj : j < i), (t.children.get ⟨j, Nat.lt_trans hj h⟩).visit ≠ 0) →
      best_node t = some (t.children.get ⟨i, h⟩)) := by
  refine ⟨fun N w => by simp [uct], fun N w v hv => by simp [uct, hv],
    fun t => rfl, fun t c h => maxByFirst_isFirstMax h,
    fun t i h hz hfirst => best_node_first_unvisited t i h hz hfirst⟩

/-- Witness for C5 at concrete inputs. -/
theorem C5_uct_policy_witness :
    (1 : ℕ) ≠ 0 ∧
    uct 3 1 1 = (((1 : ℤ) : ℝ) / ((1 : ℕ) : ℝ) +
      0.5 * 1.41 * Real.sqrt (Real.log ((3 : ℕ) : ℝ) / ((1 : ℕ) : ℝ)) : ℝ) ∧
    (tA.children.get ⟨0, by simp [tA, MTree.children]⟩).visit = 0 ∧
    best_node tA = some (tA.children.get ⟨0, by simp [tA, MTree.children]⟩) := by
  refine ⟨by decide, (C5_uct_policy (σ := Fin 3) (α := Fin 1)).2.1 3 1 1 (by decide),
    by simp [tA, MTree.children, MTree.visit], ?_⟩
  exact (C5_uct_policy (σ := Fin 3) (α := Fin 1)).2.2.2.2 tA 0
    (by simp [tA, MTree.children]) (by simp [tA, MTree.children, MTree.visit])
    (fun j hj => absurd hj (Nat.not_lt_zero j))

/-- C6: after each completed iteration the driver yields the action of the
updated root's best child, where `best_child` is python-`max` by visit
count: the returned child is the first child attaining the maximal visit
count (robust-child rule). -/
theorem C6_robust_child {σ α : Type} (g : Game σ α) (rolls : ℕ → ℕ)
    (fuel pick : ℕ) :
    (∀ t : MTree σ α, (mcts_step g rolls fuel pick t).2 =
      (best_child (descend g rolls fuel pick t).1).bind MTree.act) ∧
    (∀ t : MTree σ α, best_child t =
      maxByFirst (fun c => c.visit) t.children) ∧
    (∀ t c : MTree σ α, best_child t = some c →
      ∃ i, ∃ h : i < t.children.length, t.children.get ⟨i, h⟩ = c ∧
        IsFirstMax (fun c : MTree σ α => c.visit) t.children i) :=
  ⟨fun t => rfl, fun t => rfl, fun t c h => maxByFirst_isFirstMax h⟩

/-- Witness for C6 at a concrete tree. -/
theorem C6_robust_child_witness :
    best_child tA = some (MTree.node 1 0 0 0 (some 0) []) ∧
    ∃ i, ∃ h : i < tA.children.length,
      tA.children.get ⟨i, h⟩ = MTree.node 1 0 0 0 (some 0) [] ∧
      IsFirstMax (fun c : MTree (Fin 3) (Fin 1) => c.visit) tA.children i :=
  ⟨rfl, (C6_robust_child WG zeroRolls 1 0).2.2 tA _ rfl⟩

/-- C7: expansion produces exactly one child per legal action, each with
zeroed statistics, the parent's player id and no children of its own; a
fresh root is terminal-childless, and one MCTS iteration preserves the
invariant that every node whose state is terminal has no children (in
particular terminal leaves are never expanded). -/
theorem C7_terminal_never_expanded {σ α : Type} (g : Game σ α)
    (rolls : ℕ → ℕ) (fuel pick : ℕ) (s : σ) (pid : ℕ) :
    expandChildren g s pid = (g.actions s).map
      (fun a => MTree.node (g.result s a) pid 0 0 (some a) []) ∧
    termChildless g (freshRoot (α := α) s pid) = true ∧
    (∀ t : MTree σ α, termChildless g t = true →
      termChildless g (descend g rolls fuel pick t).1 = true) :=
  ⟨rfl, by simp [freshRoot, termChildless, termChildlessL],
    fun t h => descend_termChildless g rolls fuel pick (sizeOf t) t (le_refl _) h⟩

/-- Witness for C7 at a concrete tree. -/
theorem C7_terminal_never_expanded_witness :
    termChildless WG tA = true ∧
    termChildless WG (descend WG zeroRolls 1 0 tA).1 = true := by
  have h : termChildless WG tA = true := by
    simp [tA, termChildless, termChildlessL, WG]
  exact ⟨h, (C7_terminal_never_expanded WG zeroRolls 1 0 0 0).2.2 tA h⟩

/-- C8: the static evaluator is the liberty difference between the fixed
searching player and the opponent; on the spec's example opening position
it scores action A's successor `+2` and action B's successor `-2`, and the
depth-2 search selects A (action 0). -/
theorem C8_score_example :
    (∀ (σ α : Type) (g : Game σ α) (pid : ℕ) (s : σ), score g pid s =
      ((g.liberties s (g.locs s pid)).length : ℤ) -
        ((g.liberties s (g.locs s (1 - pid))).length : ℤ)) ∧
    score exG 0 1 = 2 ∧ score exG 0 2 = -2 ∧
    alpha_beta exG 0 0 2 = some 0 :=
  ⟨fun _ _ _ _ _ => rfl, by decide, by decide, by decide⟩

/-- C9: the iterative-deepening driver yields exactly one action per
completed depth, at depths 2, 3, 4, … (its counter increases by exactly 1
per step and starts at 2), each yield being a fresh from-scratch
`alpha_beta` run at that depth; the trace is total, so the generator never
terminates on its own. -/
theorem C9_iterative_deepening {σ α : Type} (g : Game σ α) (pid : ℕ)
    (s : σ) (n : ℕ) :
    (abIterRun g pid s n).1 = n + 2 ∧
    (abIterRun g pid s n).2 = alpha_beta g pid s (n + 2) ∧
    (abIterRun g pid s (n + 1)).1 = (abIterRun g pid s n).1 + 1 ∧
    abIterRun g pid s (n + 1) =
      alpha_beta_iter_step g pid s (abIterRun g pid s n).1 := by
  refine ⟨(abIterRun_spec g pid s n).1, (abIterRun_spec g pid s n).2, ?_, rfl⟩
  rw [(abIterRun_spec g pid s (n + 1)).1, (abIterRun_spec g pid s n).1]

/-- C10: with call fuel exceeding the depth the fueled `min_value` /
`max_value` (which consume one unit per recursive activation and recurse
only at depth exactly one less) return exactly the total functions'
values, i.e. the recursion terminates; terminal states and depth 0 return
immediately with no recursion. -/
theorem C10_termination {σ α : Type} (g : Game σ α) (pid : ℕ) (d f : ℕ)
    (hf : d < f) :
    (∀ (s : σ) (a b : EInt),
      minValueF g pid f d s a b = some (minValue g pid d s a b) ∧
      maxValueF g pid f d s a b = some (maxValue g pid d s a b)) ∧
    (∀ (s : σ) (depth : ℕ), depth - 1 < f →
      alpha_betaF g pid f s depth = some (alpha_beta g pid s depth)) ∧
    (∀ (s : σ) (a b : EInt), g.terminalTest s = true →
      minValue g pid d s a b = EInt.fin (g.utility s pid) ∧
      maxValue g pid d s a b = EInt.fin (g.utility s pid)) ∧
    (∀ (s : σ) (a b : EInt), g.terminalTest s = false →
      minValue g pid 0 s a b = EInt.fin (score g pid s) ∧
      maxValue g pid 0 s a b = EInt.fin (score g pid s)) := by
  refine ⟨?_, ?_, ?_, ?_⟩
  · exact fun s a b => ⟨abValF_eq g pid d f hf false s a b,
      abValF_eq g pid d f hf true s a b⟩
  · exact fun s depth hdf => alpha_betaF_eq g pid f s depth hdf
  · intro s a b ht
    cases d <;> (constructor <;> simp [minValue, maxValue, abVal, ht])
  · intro s a b ht
    constructor <;> simp [minValue, maxValue, abVal, ht]

/-- Witness for C10 at a concrete game, depth and fuel. -/
theorem C10_termination_witness :
    2 < 3 ∧
    minValueF WG 0 3 2 0 ⊥ ⊤ = some (minValue WG 0 2 0 ⊥ ⊤) ∧
    (1 - 1 < 3 ∧ alpha_betaF WG 0 3 0 1 = some (alpha_beta WG 0 0 1)) ∧
    (WG.terminalTest 2 = true ∧
      minValue WG 0 2 2 ⊥ ⊤ = EInt.fin (WG.utility 2 0)) ∧
    (WG.terminalTest 0 = false ∧
      minValue WG 0 0 0 ⊥ ⊤ = EInt.fin (score WG 0 0)) := by
  refine ⟨by decide, ((C10_termination WG 0 2 3 (by decide)).1 0 ⊥ ⊤).1,
    ⟨by decide, (C10_termination WG 0 2 3 (by decide)).2.1 0 1 (by decide)⟩,
    ⟨by decide, ((C10_termination WG 0 2 3 (by decide)).2.2.1 2 ⊥ ⊤ (by decide)).1⟩,
    ⟨by decide, ((C10_termination WG 0 2 3 (by decide)).2.2.2 0 ⊥ ⊤ (by decide)).1⟩⟩

end IsoSearch
